import Mathlib

/-!
# bzflag authentication daemon: the `Packet` serialisation buffer

A shallow embedding of `class Packet` from `src/bzAuthCommon/Socket.h`, of the frame
reassembly of `ConnectSocket` (declared there, its code modelled from the spec), and of
`UserStore::hashLen` and `UserStore::hash` from `src/bzauthd/UserStorage.cxx`.

Modelling conventions.

* A byte (`uint8_t`) is a `Fin 256`.
* A heap block is the list of its bytes; the length of the list is the size
  that was asked of `malloc` / `realloc`.  What a fresh cell contains is not
  specified by C, so every allocating operation takes the contents the
  allocator hands out as an argument `heap : Nat → Byte` (cell `i` of a block
  starts out as `heap i`); theorems quantify over it.
* A memory access outside a block is undefined behaviour and a loop that never
  exits has no result: both are the outcome `none`.
* `size_t` arithmetic is modulo `2 ^ 64` (`SIZE_MOD`) wherever a call takes a size as a
  bare number: `Packet.read`, `Packet.read_string_sz`, `Packet.append_placeholder_sz`.
  Where the size is the length of a byte string that exists in memory beside the buffer
  (`append`, `operator <<`, `operator >>`) the sums are exact.  `Packet.read_string` and
  `Packet.append_placeholder` are the same members with exact sums, for such sizes; they
  agree with their `_sz` twins whenever no sum wraps (`read_string_sz_eq`,
  `append_placeholder_sz_eq`).
* A pointer argument is the list of the bytes found at that address.
-/

namespace BzAuth

/-- A byte, `uint8_t`. -/
abbrev Byte := Fin 256

/-- The contents the allocator hands out: cell `i` of a fresh block holds `heap i`. -/
abbrev Heap := Nat → Byte

/-- The block returned by `malloc(size)`. -/
def malloc (heap : Heap) (size : Nat) : List Byte :=
  (List.range size).map heap

/-- The block returned by `realloc(blk, size)`: the old contents up to the smaller
of the two sizes, then fresh cells. -/
def realloc (heap : Heap) (blk : List Byte) (size : Nat) : List Byte :=
  blk.take size ++ (List.range (size - blk.length)).map (fun i => heap (blk.length + i))

/-- Reading `n` bytes at offset `off` of a block; `none` when the range leaves the block. -/
def load (blk : List Byte) (off n : Nat) : Option (List Byte) :=
  if off + n ≤ blk.length then some ((blk.drop off).take n) else none

/-- Overwriting a block at offset `off` with `bytes`; `none` when the range leaves the block. -/
def store (blk : List Byte) (off : Nat) (bytes : List Byte) : Option (List Byte) :=
  if off + bytes.length ≤ blk.length then
    some (blk.take off ++ bytes ++ blk.drop (off + bytes.length))
  else none

/-- The call `memcpy(dst + doff, src + soff, n)`, returning the new contents of `dst`. -/
def memcpy (dst : List Byte) (doff : Nat) (src : List Byte) (soff n : Nat) :
    Option (List Byte) :=
  (load src soff n).bind (fun bytes => store dst doff bytes)

/-- The data members of `class Packet`. -/
structure Packet where
  m_opcode : Nat
  m_data : List Byte
  m_size : Nat
  m_rpoz : Nat
  m_wpoz : Nat
deriving DecidableEq, Repr

/-- The data members of `class Packet::PlaceHolder`; the reference `m_packet` is the
packet handed to `PlaceHolder.write`. -/
structure PlaceHolder where
  m_size : Nat
  m_wpoz : Nat
deriving DecidableEq, Repr

namespace Packet

/-- The width of `size_t`: arithmetic on it is modulo `2 ^ 64`. -/
def SIZE_MOD : Nat := 2 ^ 64

/-- The member `void init(size_t size, uint16_t opcode)`. -/
def init (heap : Heap) (size opcode : Nat) : Packet :=
  { m_data := malloc heap size
    m_size := max size 1
    m_rpoz := 0
    m_wpoz := 0
    m_opcode := opcode }

/-- The member `void init(uint8_t *data, size_t size, uint16_t opcode)`. -/
def init_data (heap : Heap) (data : List Byte) (size opcode : Nat) : Option Packet :=
  let p := init heap size opcode
  (memcpy p.m_data 0 data 0 size).bind (fun d =>
    some { p with m_data := d, m_wpoz := size })

/-- The constructor `Packet(uint16_t opcode, size_t size = 1024)`. -/
def ofSize (heap : Heap) (opcode size : Nat) : Packet :=
  init heap size opcode

/-- The constructor `Packet(uint16_t opcode, uint8_t *data, size_t size)`. -/
def ofData (heap : Heap) (opcode : Nat) (data : List Byte) (size : Nat) : Option Packet :=
  init_data heap data size opcode

/-- The constructor `Packet(Packet & packet)`. -/
def copy (heap : Heap) (packet : Packet) : Option Packet :=
  init_data heap packet.m_data packet.m_size packet.m_opcode

/-- One pass of the body of the loop of `ensure_wpoz_inc`. -/
def grow (heap : Heap) (p : Packet) : Packet :=
  { p with m_data := realloc heap p.m_data (2 * p.m_size), m_size := 2 * p.m_size }

/-- The loop `while(m_wpoz + size >= m_size) { ... }` run for at most `fuel` tests of
its condition; `none` when the fuel does not reach the exit. -/
def ensure_loop (heap : Heap) : Nat → Packet → Nat → Option Packet
  | 0, _, _ => none
  | fuel + 1, p, size =>
    if p.m_wpoz + size ≥ p.m_size then ensure_loop heap fuel (grow heap p) size
    else some p

/-- The member `void ensure_wpoz_inc(size_t size)`.  The loop is given
`m_wpoz + size + 2` tests of its condition, which is enough whenever it exits at all
(`ensure_loop_fuel`, `ensure_loop_diverges`). -/
def ensure_wpoz_inc (heap : Heap) (p : Packet) (size : Nat) : Option Packet :=
  ensure_loop heap (p.m_wpoz + size + 2) p size

/-- The member `void append(const uint8_t *x, size_t size)`. -/
def append (heap : Heap) (p : Packet) (x : List Byte) (size : Nat) : Option Packet :=
  (ensure_wpoz_inc heap p size).bind (fun p =>
    (memcpy p.m_data p.m_wpoz x 0 size).bind (fun d =>
      some { p with m_data := d, m_wpoz := p.m_wpoz + size }))

/-- The member `PlaceHolder append_placeholder(size_t size)` with exact sums, for a
`size` that is the length of the value to be written later. -/
def append_placeholder (heap : Heap) (p : Packet) (size : Nat) :
    Option (Packet × PlaceHolder) :=
  let wpoz := p.m_wpoz
  (ensure_wpoz_inc heap p size).bind (fun p =>
    some ({ p with m_wpoz := p.m_wpoz + size }, { m_size := size, m_wpoz := wpoz }))

/-- One pass of the body of the loop of `ensure_wpoz_inc` with the arithmetic of
`size_t`: the product `2 * m_size` wraps modulo `2 ^ 64`. -/
def grow_sz (heap : Heap) (p : Packet) : Packet :=
  { p with m_data := realloc heap p.m_data ((2 * p.m_size) % SIZE_MOD),
           m_size := (2 * p.m_size) % SIZE_MOD }

/-- The loop `while(m_wpoz + size >= m_size) { ... }` with the arithmetic of `size_t`,
run for at most `fuel` tests of its condition; `none` when the fuel does not reach the
exit. -/
def ensure_loop_sz (heap : Heap) : Nat → Packet → Nat → Option Packet
  | 0, _, _ => none
  | fuel + 1, p, size =>
    if (p.m_wpoz + size) % SIZE_MOD ≥ p.m_size then
      ensure_loop_sz heap fuel (grow_sz heap p) size
    else some p

/-- The member `void ensure_wpoz_inc(size_t size)` with the arithmetic of `size_t`.
After 64 doublings `m_size` has wrapped to 0 and the loop never exits, so 64 tests of
the condition are enough whenever it exits at all (`ensure_loop_sz_fuel`). -/
def ensure_wpoz_inc_sz (heap : Heap) (p : Packet) (size : Nat) : Option Packet :=
  ensure_loop_sz heap 64 p size

/-- The member `PlaceHolder append_placeholder(size_t size)` with the arithmetic of
`size_t`: the sum `m_wpoz + size` wraps modulo `2 ^ 64`, in the test of
`ensure_wpoz_inc` and in `m_wpoz += size`. -/
def append_placeholder_sz (heap : Heap) (p : Packet) (size : Nat) :
    Option (Packet × PlaceHolder) :=
  let wpoz := p.m_wpoz
  (ensure_wpoz_inc_sz heap p size).bind (fun p =>
    some ({ p with m_wpoz := (p.m_wpoz + size) % SIZE_MOD },
      { m_size := size, m_wpoz := wpoz }))

/-- The template `Packet &operator << (const T &x)`; `x` is the object representation of
the value, `sizeof(T)` its length. -/
def operator_shl (heap : Heap) (p : Packet) (x : List Byte) : Option Packet :=
  append heap p x x.length

/-- The overload `Packet & operator << (const std::string &x)`; `x` is the characters of
the string, `x.size()` their number. -/
def operator_shl_string (heap : Heap) (p : Packet) (x : List Byte) : Option Packet :=
  append heap p x x.length

/-- The loop `while(len < 4096) if(!x[len++]) break;` of `operator << (const char *)`,
started at `len`, for at most `fuel` tests of its condition. -/
def cstr_scan (x : Nat → Byte) : Nat → Nat → Option Nat
  | 0, _ => none
  | fuel + 1, len =>
    if len < 4096 then
      if x len = 0 then some (len + 1) else cstr_scan x fuel (len + 1)
    else some len

/-- The overload `Packet &operator << (const char * const &x)`; `x i` is the byte at
`x[i]`. -/
def operator_shl_cstr (heap : Heap) (p : Packet) (x : Nat → Byte) : Option Packet :=
  (cstr_scan x 4097 0).bind (fun len => append heap p ((List.range len).map x) len)

/-- The template `Packet& operator >> (T &x)`; the argument is the value of `x` before
the call, `sizeof(T)` its length, and the result carries the value of `x` after it. -/
def operator_shr (p : Packet) (x : List Byte) : Option (Packet × List Byte) :=
  if p.m_rpoz + x.length ≤ p.m_size then
    (load p.m_data p.m_rpoz x.length).bind (fun v =>
      some ({ p with m_rpoz := p.m_rpoz + x.length }, v))
  else some ({ p with m_rpoz := p.m_size + 1 }, x)

/-- The member `bool read(uint8_t *x, size_t size)`, with the arithmetic of `size_t`: the
sums `m_rpoz + size` and `m_size + 1` wrap modulo `2 ^ 64`, while `memcpy` is asked for
`size` bytes.  The result carries the packet, the buffer `x` and the returned flag. -/
def read (p : Packet) (x : List Byte) (size : Nat) : Option (Packet × List Byte × Bool) :=
  if (p.m_rpoz + size) % SIZE_MOD > p.m_size then
    some ({ p with m_rpoz := (p.m_size + 1) % SIZE_MOD }, x, false)
  else
    (memcpy x 0 p.m_data p.m_rpoz size).bind (fun x =>
      some ({ p with m_rpoz := (p.m_rpoz + size) % SIZE_MOD }, x, true))

/-- The member `bool read(uint8_t *x, size_t size)` with the arithmetic of `size_t`:
the sums `m_rpoz + size` and `m_size + 1` wrap modulo `2 ^ 64`. -/
def read_sz (p : Packet) (x : List Byte) (size : Nat) : Option (Packet × List Byte × Bool) :=
  if (p.m_rpoz + size) % SIZE_MOD > p.m_size then
    some ({ p with m_rpoz := (p.m_size + 1) % SIZE_MOD }, x, false)
  else
    (memcpy x 0 p.m_data p.m_rpoz size).bind (fun x =>
      some ({ p with m_rpoz := (p.m_rpoz + size) % SIZE_MOD }, x, true))

/-- The loop of `read_string`, from index `i`, for at most `fuel` tests of its
condition. -/
def read_string_loop (p : Packet) (buf_size : Nat) :
    Nat → Nat → List Byte → Option (Packet × List Byte × Bool)
  | 0, _, _ => none
  | fuel + 1, i, x =>
    if i < min (p.m_rpoz + buf_size) p.m_size then
      p.m_data[i]?.bind (fun b =>
        (store x (i - p.m_rpoz) [b]).bind (fun x =>
          if b = 0 then some ({ p with m_rpoz := i + 1 }, x, true)
          else read_string_loop p buf_size fuel (i + 1) x))
    else some ({ p with m_rpoz := p.m_size + 1 }, x, false)

/-- The member `bool read_string(uint8_t *x, size_t buf_size)` with exact sums, for a
`buf_size` that is the size of a destination buffer that exists in memory.  The loop
tests its condition at most `m_size + 1` times. -/
def read_string (p : Packet) (x : List Byte) (buf_size : Nat) :
    Option (Packet × List Byte × Bool) :=
  read_string_loop p buf_size (p.m_size + 1) p.m_rpoz x

/-- The loop of `read_string` with the arithmetic of `size_t`: the sums
`m_rpoz + buf_size` and `m_size + 1` wrap modulo `2 ^ 64` (`i + 1` cannot, `i` being
below `m_size`). -/
def read_string_loop_sz (p : Packet) (buf_size : Nat) :
    Nat → Nat → List Byte → Option (Packet × List Byte × Bool)
  | 0, _, _ => none
  | fuel + 1, i, x =>
    if i < min ((p.m_rpoz + buf_size) % SIZE_MOD) p.m_size then
      p.m_data[i]?.bind (fun b =>
        (store x (i - p.m_rpoz) [b]).bind (fun x =>
          if b = 0 then some ({ p with m_rpoz := i + 1 }, x, true)
          else read_string_loop_sz p buf_size fuel (i + 1) x))
    else some ({ p with m_rpoz := (p.m_size + 1) % SIZE_MOD }, x, false)

/-- The member `bool read_string(uint8_t *x, size_t buf_size)` with the arithmetic of
`size_t`.  The loop tests its condition at most `m_size + 1` times
(`read_string_loop_sz_fuel`). -/
def read_string_sz (p : Packet) (x : List Byte) (buf_size : Nat) :
    Option (Packet × List Byte × Bool) :=
  read_string_loop_sz p buf_size (p.m_size + 1) p.m_rpoz x

/-- The member `void read_end()`. -/
def read_end (p : Packet) : Packet :=
  { p with m_rpoz := p.m_size }

/-- The conversion `operator bool() const`. -/
def operator_bool (p : Packet) : Bool :=
  decide (p.m_rpoz ≤ p.m_size)

/-- The member `size_t getLength() const`. -/
def getLength (p : Packet) : Nat := p.m_wpoz

/-- The member `uint16_t getOpcode() const`. -/
def getOpcode (p : Packet) : Nat := p.m_opcode

/-- The member `const uint8_t * getData() const`. -/
def getData (p : Packet) : List Byte := p.m_data

end Packet

/-- The member `void PlaceHolder::write(const uint8_t * x)`, on the packet the
placeholder refers to. -/
def PlaceHolder.write (ph : PlaceHolder) (p : Packet) (x : List Byte) : Option Packet :=
  (memcpy p.m_data ph.m_wpoz x 0 ph.m_size).bind (fun d => some { p with m_data := d })

namespace Packet

/-- A run of `append` calls, one per byte string, in order. -/
def appendAll (heap : Heap) : Packet → List (List Byte) → Option Packet
  | p, [] => some p
  | p, b :: bs => (append heap p b b.length).bind (fun q => appendAll heap q bs)

/-- A run of `operator <<` calls on fixed-size values, in order. -/
def shlAll (heap : Heap) : Packet → List (List Byte) → Option Packet
  | p, [] => some p
  | p, v :: vs => (operator_shl heap p v).bind (fun q => shlAll heap q vs)

/-- A run of `operator >>` calls, one per destination variable, in order; the result
carries the values the variables hold afterwards. -/
def shrAll : Packet → List (List Byte) → Option (Packet × List (List Byte))
  | p, [] => some (p, [])
  | p, x :: xs =>
    (operator_shr p x).bind (fun r =>
      (shrAll r.1 xs).bind (fun s => some (s.1, r.2 :: s.2)))

/-- The allocation invariant of a packet: the capacity is positive, the write cursor
lies inside the block, and the block has `m_size` bytes, or none at all right after a
construction with size `0` (where `init` sets `m_size` to `1`). -/
structure Inv (p : Packet) : Prop where
  size_pos : 1 ≤ p.m_size
  wpoz_le : p.m_wpoz ≤ p.m_data.length
  alloc : p.m_data.length = p.m_size ∨ (p.m_data.length = 0 ∧ p.m_size = 1)

end Packet

/-- A call of a public member of `Packet` (or of `PlaceHolder::write` on a placeholder
the packet has issued), with its arguments. -/
inductive Op where
  | shl (x : List Byte)
  | shl_string (x : List Byte)
  | shl_cstr (x : Nat → Byte)
  | append (x : List Byte) (size : Nat)
  | append_placeholder (size : Nat)
  | write (i : Nat) (x : List Byte)
  | shr (x : List Byte)
  | read (x : List Byte) (size : Nat)
  | read_string (x : List Byte) (buf_size : Nat)
  | read_end

/-- A packet in use: its state and the placeholders it has issued so far, oldest first. -/
structure Session where
  pkt : Packet
  issued : List PlaceHolder
deriving DecidableEq, Repr

/-- The effect of one call on a packet in use; `Op.write i x` is `write(x)` on the
`i`-th placeholder issued.  `read` and `read_string` take their size as a bare number
and are run with the arithmetic of `size_t`; the insertions are run with exact sums. -/
def step (heap : Heap) (s : Session) : Op → Option Session
  | .shl x => (Packet.operator_shl heap s.pkt x).map (fun p => { s with pkt := p })
  | .shl_string x => (Packet.operator_shl_string heap s.pkt x).map (fun p => { s with pkt := p })
  | .shl_cstr x => (Packet.operator_shl_cstr heap s.pkt x).map (fun p => { s with pkt := p })
  | .append x size => (Packet.append heap s.pkt x size).map (fun p => { s with pkt := p })
  | .append_placeholder size =>
    (Packet.append_placeholder heap s.pkt size).map (fun r =>
      { pkt := r.1, issued := s.issued ++ [r.2] })
  | .write i x =>
    s.issued[i]?.bind (fun ph => (ph.write s.pkt x).map (fun p => { s with pkt := p }))
  | .shr x => (Packet.operator_shr s.pkt x).map (fun r => { s with pkt := r.1 })
  | .read x size => (Packet.read s.pkt x size).map (fun r => { s with pkt := r.1 })
  | .read_string x buf_size =>
    (Packet.read_string_sz s.pkt x buf_size).map (fun r => { s with pkt := r.1 })
  | .read_end => some { s with pkt := s.pkt.read_end }

/-- The packets in use that a program can reach: built by one of the three constructors,
then driven by any finite sequence of calls that have a defined result. -/
inductive Reachable (heap : Heap) : Session → Prop where
  | ofSize (opcode size : Nat) : Reachable heap ⟨Packet.ofSize heap opcode size, []⟩
  | ofData (opcode : Nat) (data : List Byte) (size : Nat) (p : Packet) :
      Packet.ofData heap opcode data size = some p → Reachable heap ⟨p, []⟩
  | copy (s : Session) (p : Packet) :
      Reachable heap s → Packet.copy heap s.pkt = some p → Reachable heap ⟨p, []⟩
  | step (s : Session) (op : Op) (t : Session) :
      Reachable heap s → step heap s op = some t → Reachable heap t

/-- The invariant of a packet in use: the allocation invariant of the packet, and every
placeholder issued lies below the write cursor. -/
structure Session.Inv (s : Session) : Prop where
  pkt : s.pkt.Inv
  issued : ∀ ph ∈ s.issued, ph.m_wpoz + ph.m_size ≤ s.pkt.m_wpoz

/-! ## The reassembly state machine of `ConnectSocket` and the hash of `UserStore` -/

/-- The constant `MAX_PACKET_SIZE` of `Socket.h`, the size of the receive buffer of a
`ConnectSocket`. -/
def MAX_PACKET_SIZE : Nat := 4096

/-- Modelled from the spec: the size of the frame header of `ConnectSocket`, whose code
(`update`, `initRead`) is not among the sources: an opcode of 16 bits followed by a
payload length of 16 bits. -/
def HEADER_SIZE : Nat := 4

/-- Modelled from the spec: the reassembly state of a `ConnectSocket`, with the members
declared in `Socket.h`: `buffer` holds the bytes of the current frame received so far
(`buffer[0 .. poz)`), `poz` is the write offset, `remainingHeader` and `remainingData`
count the header and payload bytes still needed; `connected` is false in the terminal
state `Disconnected`. -/
structure ConnectSocket where
  buffer : List Byte
  poz : Nat
  remainingHeader : Nat
  remainingData : Nat
  connected : Bool
deriving DecidableEq, Repr

namespace ConnectSocket

/-- Modelled from the spec: `ConnectSocket::initRead`, the reset to the state
`AwaitingHeader` with offset 0. -/
def initRead : ConnectSocket :=
  { buffer := [], poz := 0, remainingHeader := HEADER_SIZE, remainingData := 0,
    connected := true }

/-- Modelled from the spec: the disconnection of a `ConnectSocket` (orderly close, read
error, or a frame rejected as a protocol error). -/
def disconnect (s : ConnectSocket) : ConnectSocket :=
  { s with connected := false }

/-- Modelled from the spec: the construction of the `Packet` handed to `onReadData` from
the accumulated header and payload, with `u16` the decoding of a 16-bit integer from its
two bytes in the byte order the implementation chose: the opcode is the first header
field and the data are the payload. -/
def frame_packet (u16 : Byte → Byte → Nat) (heap : Heap) (buffer : List Byte) :
    Option Packet :=
  Packet.ofData heap (u16 (buffer.getD 0 0) (buffer.getD 1 0)) (buffer.drop HEADER_SIZE)
    (buffer.length - HEADER_SIZE)

/-- Modelled from the spec: the advance of the reassembly state machine of
`ConnectSocket::update` by one received byte.  In `AwaitingHeader` the byte joins the
header; when the header is complete the payload length is extracted: a length above
`maxPayload` is rejected (disconnect), a length of 0 dispatches an empty-payload packet
at once and returns to `AwaitingHeader`, any other length leads to `AwaitingPayload`.
In `AwaitingPayload` the byte joins the payload; when the payload is complete the packet
is built and dispatched and the state is reset to `AwaitingHeader`.  The packets
dispatched so far, oldest first, are the second component. -/
def recv_byte (u16 : Byte → Byte → Nat) (maxPayload : Nat) (heap : Heap)
    (st : ConnectSocket × List Packet) (b : Byte) : ConnectSocket × List Packet :=
  let s := st.1
  if ¬ s.connected then st
  else if 0 < s.remainingHeader then
    let s1 := { s with buffer := s.buffer ++ [b], poz := s.poz + 1,
                       remainingHeader := s.remainingHeader - 1 }
    if s1.remainingHeader = 0 then
      let len := u16 (s1.buffer.getD 2 0) (s1.buffer.getD 3 0)
      if maxPayload < len then (s1.disconnect, st.2)
      else if len = 0 then
        match frame_packet u16 heap s1.buffer with
        | some p => (initRead, st.2 ++ [p])
        | none => (s1.disconnect, st.2)
      else ({ s1 with remainingData := len }, st.2)
    else (s1, st.2)
  else
    let s1 := { s with buffer := s.buffer ++ [b], poz := s.poz + 1,
                       remainingData := s.remainingData - 1 }
    if s1.remainingData = 0 then
      match frame_packet u16 heap s1.buffer with
      | some p => (initRead, st.2 ++ [p])
      | none => (s1.disconnect, st.2)
    else (s1, st.2)

/-- Modelled from the spec: one call of `ConnectSocket::update`, with `chunk` the bytes
its single non-blocking read returns: a zero-byte read is an orderly close and
disconnects; otherwise the bytes go into the receive buffer in order and the state
machine advances as far as they allow, possibly through several frames. -/
def update (u16 : Byte → Byte → Nat) (maxPayload : Nat) (heap : Heap)
    (st : ConnectSocket × List Packet) (chunk : List Byte) : ConnectSocket × List Packet :=
  if chunk = [] then (st.1.disconnect, st.2)
  else chunk.foldl (recv_byte u16 maxPayload heap) st

/-- A run of `update` calls, one per chunk read, in order. -/
def updates (u16 : Byte → Byte → Nat) (maxPayload : Nat) (heap : Heap)
    (st : ConnectSocket × List Packet) (chunks : List (List Byte)) :
    ConnectSocket × List Packet :=
  chunks.foldl (update u16 maxPayload heap) st

end ConnectSocket

/-- The decoding of a 16-bit integer sent low byte first, one of the two byte orders an
implementation can choose. -/
def u16_le (lo hi : Byte) : Nat := lo.val + 256 * hi.val

/-- Modelled from the spec: the value of `gcry_md_get_algo_dlen(GCRY_MD_MD5)`, the length
of an MD5 digest, which is 16 bytes. -/
def MD5_DLEN : Nat := 16

/-- Modelled from the spec: the alphabet of standard base64 (`A`-`Z`, `a`-`z`, `0`-`9`,
`+`, `/`), used by `base64::encode`, whose code is not among the sources. -/
def base64_char (n : Nat) : Byte :=
  if n < 26 then Fin.ofNat (65 + n)
  else if n < 52 then Fin.ofNat (97 + (n - 26))
  else if n < 62 then Fin.ofNat (48 + (n - 52))
  else if n = 62 then 43
  else 47

/-- Modelled from the spec: `base64::encode`, the standard padded base64 encoding: every
three bytes give four characters, and a last group of one or two bytes is padded with
`=` to four characters. -/
def base64_encode : List Byte → List Byte
  | [] => []
  | [a] => [base64_char (a.val / 4), base64_char (a.val % 4 * 16), 61, 61]
  | [a, b] =>
    [base64_char (a.val / 4), base64_char (a.val % 4 * 16 + b.val / 16),
      base64_char (b.val % 16 * 4), 61]
  | a :: b :: c :: rest =>
    base64_char (a.val / 4) :: base64_char (a.val % 4 * 16 + b.val / 16) ::
      base64_char (b.val % 16 * 4 + c.val / 64) :: base64_char (c.val % 64) ::
      base64_encode rest

namespace UserStore

/-- The member `size_t UserStore::hashLen()`. -/
def hashLen : Nat := MD5_DLEN / 2 * 3 + 5

/-- The characters `"{md5}"` that `UserStore::hash` copies to the start of `digest`. -/
def md5_tag : List Byte := [123, 109, 100, 53, 125]

/-- The member `void UserStore::hash(uint8_t *message, size_t message_len, uint8_t
*digest)`: the result is the characters it writes into `digest` before any terminator;
`md5` is `gcry_md_hash_buffer(GCRY_MD_MD5, ...)`, of which `tmpbuf` receives `md5len`
bytes. -/
def hash (md5 : List Byte → List Byte) (message : List Byte) : List Byte :=
  let md5len := MD5_DLEN
  let tmpbuf := (md5 message).take md5len
  md5_tag ++ base64_encode tmpbuf

end UserStore

/-! ## Memory and growth lemmas -/

theorem load_eq_some {blk : List Byte} {off n : Nat} (h : off + n ≤ blk.length) :
    load blk off n = some ((blk.drop off).take n) := by
  simp [load, h]

theorem load_zero_length (x : List Byte) : load x 0 x.length = some x := by
  simp [load]

theorem store_eq_some (blk : List Byte) (off : Nat) (bytes : List Byte)
    (h : off + bytes.length ≤ blk.length) :
    store blk off bytes = some (blk.take off ++ bytes ++ blk.drop (off + bytes.length)) := by
  simp [store, h]

theorem store_length {blk : List Byte} {off : Nat} {bytes d : List Byte}
    (h : store blk off bytes = some d) : d.length = blk.length := by
  unfold store at h
  split at h
  · cases h
    simp
    omega
  · cases h

theorem store_take {blk : List Byte} {off : Nat} {bytes d : List Byte}
    (h : store blk off bytes = some d) : d.take (off + bytes.length) = blk.take off ++ bytes := by
  unfold store at h
  split at h
  · next hle =>
    cases h
    have h1 : (blk.take off ++ bytes).length = off + bytes.length := by
      simp; omega
    rw [← h1, List.take_left']
    rfl
  · cases h

theorem memcpy_src (dst : List Byte) (doff : Nat) (x : List Byte) :
    memcpy dst doff x 0 x.length = store dst doff x := by
  simp [memcpy, load_zero_length]

namespace Packet

theorem Inv.alloc_le {p : Packet} (h : Inv p) : p.m_data.length ≤ p.m_size := by
  rcases h.alloc with h1 | ⟨h1, h2⟩ <;> omega

theorem realloc_length (heap : Heap) (blk : List Byte) (size : Nat) :
    (realloc heap blk size).length = size := by
  simp [realloc]
  omega

theorem realloc_extends (heap : Heap) (blk : List Byte) (size : Nat)
    (h : blk.length ≤ size) : blk <+: realloc heap blk size := by
  unfold realloc
  rw [List.take_of_length_le h]
  exact List.prefix_append _ _

theorem grow_inv (heap : Heap) {p : Packet} (h : Inv p) : Inv (grow heap p) := by
  have := h.size_pos
  have := h.wpoz_le
  have := h.alloc_le
  refine ⟨?_, ?_, ?_⟩
  · simp [grow]; omega
  · simp [grow, realloc_length]; omega
  · left; simp [grow, realloc_length]

theorem grow_alloc (heap : Heap) (p : Packet) :
    (grow heap p).m_data.length = (grow heap p).m_size := by
  simp [grow, realloc_length]

theorem grow_extends (heap : Heap) {p : Packet} (h : Inv p) :
    p.m_data <+: (grow heap p).m_data := by
  have := h.alloc_le
  exact realloc_extends heap _ _ (by omega)

/-- What the loop of `ensure_wpoz_inc` establishes, for any fuel that reaches its exit. -/
theorem ensure_loop_spec (heap : Heap) (size : Nat) :
    ∀ (fuel : Nat) (p : Packet), Inv p → 1 ≤ fuel → p.m_wpoz + size + 2 ≤ fuel + p.m_size →
      ∃ q, ensure_loop heap fuel p size = some q ∧ Inv q ∧
        q.m_opcode = p.m_opcode ∧ q.m_rpoz = p.m_rpoz ∧ q.m_wpoz = p.m_wpoz ∧
        p.m_wpoz + size < q.m_size ∧ p.m_wpoz + size ≤ q.m_data.length ∧
        p.m_data <+: q.m_data ∧ (∃ k, q.m_size = p.m_size * 2 ^ k) ∧
        (p.m_wpoz + size < p.m_size → q = p) := by
  intro fuel
  induction fuel with
  | zero => intro p _ h; omega
  | succ fuel ih =>
    intro p hp _ hf
    have hpos := hp.size_pos
    by_cases hc : p.m_wpoz + size ≥ p.m_size
    · have hg : (grow heap p).m_size = 2 * p.m_size := rfl
      have hw : (grow heap p).m_wpoz = p.m_wpoz := rfl
      obtain ⟨q, hq, hinv, ho, hr, hw', hlt, hle, hpre, ⟨k, hk⟩, _⟩ :=
        ih (grow heap p) (grow_inv heap hp) (by omega) (by rw [hg, hw]; omega)
      refine ⟨q, ?_, hinv, ho, hr, hw', hlt, hle, (grow_extends heap hp).trans hpre,
        ⟨k + 1, ?_⟩, ?_⟩
      · simp [ensure_loop, hc, hq]
      · rw [hk, hg, pow_succ]; ring
      · intro h; omega
    · have hlt : p.m_wpoz + size < p.m_size := by omega
      refine ⟨p, ?_, hp, rfl, rfl, rfl, hlt, ?_, List.prefix_refl _, ⟨0, by simp⟩, fun _ => rfl⟩
      · simp [ensure_loop, hc]
      · rcases hp.alloc with h1 | ⟨h1, h2⟩
        · omega
        · omega

/-- The fuel built into `ensure_wpoz_inc` reaches the exit of the loop on every packet
that satisfies the invariant. -/
theorem ensure_wpoz_inc_spec (heap : Heap) {p : Packet} (hp : Inv p) (size : Nat) :
    ∃ q, ensure_wpoz_inc heap p size = some q ∧ Inv q ∧
      q.m_opcode = p.m_opcode ∧ q.m_rpoz = p.m_rpoz ∧ q.m_wpoz = p.m_wpoz ∧
      p.m_wpoz + size < q.m_size ∧ p.m_wpoz + size ≤ q.m_data.length ∧
      p.m_data <+: q.m_data ∧ (∃ k, q.m_size = p.m_size * 2 ^ k) ∧
      (p.m_wpoz + size < p.m_size → q = p) :=
  ensure_loop_spec heap size _ p hp (by omega) (by have := hp.size_pos; omega)

/-- With capacity 0 the condition of the loop of `ensure_wpoz_inc` stays true for ever:
no fuel reaches the exit. -/
theorem ensure_loop_diverges (heap : Heap) (size : Nat) :
    ∀ (fuel : Nat) (p : Packet), p.m_size = 0 → ensure_loop heap fuel p size = none := by
  intro fuel
  induction fuel with
  | zero => intro p _; rfl
  | succ fuel ih =>
    intro p hp
    unfold ensure_loop
    rw [if_pos (by omega)]
    exact ih (grow heap p) (by simp [grow, hp])

/-- More fuel does not change the result of the loop of `ensure_wpoz_inc`. -/
theorem ensure_loop_mono (heap : Heap) (size : Nat) :
    ∀ (fuel : Nat) (p q : Packet), ensure_loop heap fuel p size = some q →
      ∀ fuel', fuel ≤ fuel' → ensure_loop heap fuel' p size = some q := by
  intro fuel
  induction fuel with
  | zero => intro p q h; simp [ensure_loop] at h
  | succ fuel ih =>
    intro p q h fuel' hle
    obtain ⟨m, rfl⟩ : ∃ m, fuel' = m + 1 := ⟨fuel' - 1, by omega⟩
    unfold ensure_loop at h ⊢
    split
    · next hc =>
      rw [if_pos hc] at h
      exact ih _ _ h m (by omega)
    · next hc =>
      rw [if_neg hc] at h
      exact h

/-- With a positive capacity the loop of `ensure_wpoz_inc` exits within
`m_wpoz + size + 2 - m_size` tests of its condition (and at least one). -/
theorem ensure_loop_terminates (heap : Heap) (size : Nat) :
    ∀ (fuel : Nat) (p : Packet), 1 ≤ p.m_size → 1 ≤ fuel →
      p.m_wpoz + size + 2 ≤ fuel + p.m_size → ∃ q, ensure_loop heap fuel p size = some q := by
  intro fuel
  induction fuel with
  | zero => intro p _ h; omega
  | succ fuel ih =>
    intro p hp _ hf
    unfold ensure_loop
    by_cases hc : p.m_wpoz + size ≥ p.m_size
    · rw [if_pos hc]
      have hg : (grow heap p).m_size = 2 * p.m_size := rfl
      have hw : (grow heap p).m_wpoz = p.m_wpoz := rfl
      exact ih (grow heap p) (by omega) (by omega) (by rw [hg, hw]; omega)
    · rw [if_neg hc]
      exact ⟨p, rfl⟩

/-- The fuel built into `ensure_wpoz_inc` is enough: whenever some fuel reaches the exit
of the loop, `ensure_wpoz_inc` has that same result. -/
theorem ensure_loop_fuel (heap : Heap) {p q : Packet} {size fuel : Nat}
    (h : ensure_loop heap fuel p size = some q) : ensure_wpoz_inc heap p size = some q := by
  have hpos : 1 ≤ p.m_size := by
    by_contra hno
    rw [ensure_loop_diverges heap size fuel p (by omega)] at h
    cases h
  obtain ⟨q', hq'⟩ := ensure_loop_terminates heap size (p.m_wpoz + size + 2) p hpos
    (by omega) (by omega)
  have h1 := ensure_loop_mono heap size _ _ _ h (max fuel (p.m_wpoz + size + 2))
    (le_max_left _ _)
  have h2 := ensure_loop_mono heap size _ _ _ hq' (max fuel (p.m_wpoz + size + 2))
    (le_max_right _ _)
  rw [h1] at h2
  cases h2
  exact hq'

theorem init_inv (heap : Heap) (size opcode : Nat) : Inv (init heap size opcode) := by
  refine ⟨?_, ?_, ?_⟩
  · simp [init]
  · simp [init]
  · simp [init, malloc]
    omega

/-- What `append` does to a packet that satisfies the invariant. -/
theorem append_spec (heap : Heap) {p : Packet} (hp : Inv p) (x : List Byte) :
    ∃ q, append heap p x x.length = some q ∧ Inv q ∧
      q.m_opcode = p.m_opcode ∧ q.m_rpoz = p.m_rpoz ∧ q.m_wpoz = p.m_wpoz + x.length ∧
      q.m_wpoz < q.m_size ∧
      q.m_data.take q.m_wpoz = p.m_data.take p.m_wpoz ++ x ∧
      (∃ k, q.m_size = p.m_size * 2 ^ k) := by
  obtain ⟨e, he, hinv, ho, hr, hw, hlt, hle, hpre, hk, _⟩ := ensure_wpoz_inc_spec heap hp x.length
  have hst := store_eq_some e.m_data e.m_wpoz x (by omega)
  refine ⟨{ e with m_data := e.m_data.take e.m_wpoz ++ x ++ e.m_data.drop (e.m_wpoz + x.length),
                   m_wpoz := e.m_wpoz + x.length }, ?_, ?_, ho, hr, ?_, ?_, ?_, hk⟩
  · simp [append, he, memcpy_src, hst]
  · refine ⟨hinv.size_pos, ?_, ?_⟩
    · simp; omega
    · have := hinv.alloc
      have h1 : (e.m_data.take e.m_wpoz ++ x ++ e.m_data.drop (e.m_wpoz + x.length)).length
          = e.m_data.length := store_length hst
      simp only [h1]
      exact this
  · simp [hw]
  · simp; omega
  · have h2 := store_take hst
    simp only
    rw [h2]
    obtain ⟨t, ht⟩ := hpre
    rw [← ht, hw, List.take_append_of_le_length hp.wpoz_le]

theorem appendAll_spec (heap : Heap) :
    ∀ (bs : List (List Byte)) (p : Packet), Inv p →
      ∃ q, appendAll heap p bs = some q ∧ Inv q ∧
        q.m_opcode = p.m_opcode ∧ q.m_rpoz = p.m_rpoz ∧
        q.m_wpoz = p.m_wpoz + bs.flatten.length ∧
        q.m_data.take q.m_wpoz = p.m_data.take p.m_wpoz ++ bs.flatten := by
  intro bs
  induction bs with
  | nil => intro p hp; exact ⟨p, rfl, hp, rfl, rfl, by simp, by simp⟩
  | cons b bs ih =>
    intro p hp
    obtain ⟨q, hq, hinv, ho, hr, hw, _, hd, _⟩ := append_spec heap hp b
    obtain ⟨q', hq', hinv', ho', hr', hw', hd'⟩ := ih q hinv
    refine ⟨q', ?_, hinv', ho'.trans ho, hr'.trans hr, ?_, ?_⟩
    · simp [appendAll, hq, hq']
    · rw [hw', hw]; simp; omega
    · rw [hd', hd]; simp

theorem init_data_spec (heap : Heap) {data : List Byte} {size opcode : Nat} {p : Packet}
    (h : init_data heap data size opcode = some p) :
    p.m_opcode = opcode ∧ p.m_data = data.take size ∧ p.m_data.length = size ∧
      p.m_size = max size 1 ∧ p.m_rpoz = 0 ∧ p.m_wpoz = size := by
  unfold init_data memcpy load store at h
  simp only [init, malloc] at h
  split at h
  · next hle =>
    simp at h hle
    subst h
    simp
    omega
  · simp at h

theorem init_data_inv (heap : Heap) {data : List Byte} {size opcode : Nat} {p : Packet}
    (h : init_data heap data size opcode = some p) : Inv p := by
  obtain ⟨_, _, hl, hs, _, hw⟩ := init_data_spec heap h
  refine ⟨by omega, by omega, ?_⟩
  rw [hl, hs]
  omega

theorem ensure_wpoz_inc_eq_some (heap : Heap) {p q : Packet} (hp : Inv p) {size : Nat}
    (h : ensure_wpoz_inc heap p size = some q) :
    Inv q ∧ q.m_opcode = p.m_opcode ∧ q.m_rpoz = p.m_rpoz ∧ q.m_wpoz = p.m_wpoz ∧
      p.m_wpoz + size < q.m_size ∧ p.m_wpoz + size ≤ q.m_data.length ∧
      p.m_data <+: q.m_data ∧ (∃ k, q.m_size = p.m_size * 2 ^ k) := by
  obtain ⟨e, he, h1, h2, h3, h4, h5, h6, h7, h8, _⟩ := ensure_wpoz_inc_spec heap hp size
  rw [he] at h
  cases h
  exact ⟨h1, h2, h3, h4, h5, h6, h7, h8⟩

/-- Whenever `append` has a result, it is the one of `append_spec`, also when the size
passed differs from the length of the source. -/
theorem append_eq_some (heap : Heap) {p q : Packet} (hp : Inv p) {x : List Byte} {size : Nat}
    (h : append heap p x size = some q) :
    Inv q ∧ q.m_opcode = p.m_opcode ∧ q.m_rpoz = p.m_rpoz ∧ q.m_wpoz = p.m_wpoz + size ∧
      q.m_wpoz < q.m_size ∧ size ≤ x.length ∧
      q.m_data.take q.m_wpoz = p.m_data.take p.m_wpoz ++ x.take size ∧
      (∃ k, q.m_size = p.m_size * 2 ^ k) := by
  unfold append at h
  obtain ⟨e, he, hinv, ho, hr, hw, hlt, hle, hpre, hk, _⟩ := ensure_wpoz_inc_spec heap hp size
  rw [he] at h
  simp only [Option.some_bind, memcpy, load] at h
  split at h
  · next hsz =>
    simp only [Option.some_bind, List.drop_zero] at h
    have hlen : (x.take size).length = size := by simp; omega
    have hst := store_eq_some e.m_data e.m_wpoz (x.take size)
      (by omega)
    rw [hst] at h
    simp only [Option.some_bind, Option.some.injEq] at h
    subst h
    refine ⟨⟨hinv.size_pos, ?_, ?_⟩, ho, hr, ?_, ?_, by omega, ?_, hk⟩
    · simp only [store_length hst]; omega
    · simp only [store_length hst]; exact hinv.alloc
    · simp [hw]
    · simp only; omega
    · have h2 := store_take hst
      rw [hlen] at h2
      simp only [hlen]
      rw [h2]
      obtain ⟨t, ht⟩ := hpre
      rw [← ht, hw, List.take_append_of_le_length hp.wpoz_le]
  · simp at h

end Packet

theorem PlaceHolder.write_eq_some {ph : PlaceHolder} {p q : Packet} {x : List Byte}
    (h : ph.write p x = some q) :
    q.m_opcode = p.m_opcode ∧ q.m_size = p.m_size ∧ q.m_rpoz = p.m_rpoz ∧
      q.m_wpoz = p.m_wpoz ∧ q.m_data.length = p.m_data.length := by
  unfold PlaceHolder.write memcpy at h
  cases hl : load x 0 ph.m_size with
  | none => simp [hl] at h
  | some bytes =>
    simp only [hl, Option.some_bind] at h
    cases hs : store p.m_data ph.m_wpoz bytes with
    | none => simp [hs] at h
    | some d =>
      simp only [hs, Option.some_bind, Option.some.injEq] at h
      subst h
      exact ⟨rfl, rfl, rfl, rfl, store_length hs⟩

namespace Packet

theorem Inv.of_rpoz {p : Packet} (hp : Inv p) (r : Nat) : Inv { p with m_rpoz := r } :=
  ⟨hp.size_pos, hp.wpoz_le, hp.alloc⟩

/-- The call `operator >>` changes nothing but the read cursor. -/
theorem operator_shr_frame {p q : Packet} {x y : List Byte}
    (h : operator_shr p x = some (q, y)) : q = { p with m_rpoz := q.m_rpoz } := by
  unfold operator_shr at h
  split at h
  · cases hl : load p.m_data p.m_rpoz x.length with
    | none => simp [hl] at h
    | some v =>
      simp only [hl, Option.some_bind, Option.some.injEq, Prod.mk.injEq] at h
      obtain ⟨h1, _⟩ := h
      subst h1
      rfl
  · simp only [Option.some.injEq, Prod.mk.injEq] at h
    obtain ⟨h1, _⟩ := h
    subst h1
    rfl

/-- The call `read` changes nothing but the read cursor. -/
theorem read_frame {p q : Packet} {x y : List Byte} {size : Nat} {b : Bool}
    (h : read p x size = some (q, y, b)) : q = { p with m_rpoz := q.m_rpoz } := by
  unfold read at h
  split at h
  · simp only [Option.some.injEq, Prod.mk.injEq] at h
    obtain ⟨h1, _⟩ := h
    subst h1
    rfl
  · cases hl : memcpy x 0 p.m_data p.m_rpoz size with
    | none => simp [hl] at h
    | some v =>
      simp only [hl, Option.some_bind, Option.some.injEq, Prod.mk.injEq] at h
      obtain ⟨h1, _⟩ := h
      subst h1
      rfl

theorem read_string_loop_frame (p : Packet) (buf_size : Nat) :
    ∀ (fuel i : Nat) (x y : List Byte) (q : Packet) (b : Bool),
      read_string_loop p buf_size fuel i x = some (q, y, b) →
        q = { p with m_rpoz := q.m_rpoz } := by
  intro fuel
  induction fuel with
  | zero => intro i x y q b h; simp [read_string_loop] at h
  | succ fuel ih =>
    intro i x y q b h
    unfold read_string_loop at h
    split at h
    · cases hb : p.m_data[i]? with
      | none => simp [hb] at h
      | some c =>
        simp only [hb, Option.some_bind] at h
        cases hs : store x (i - p.m_rpoz) [c] with
        | none => simp [hs] at h
        | some x' =>
          simp only [hs, Option.some_bind] at h
          split at h
          · simp only [Option.some.injEq, Prod.mk.injEq] at h
            obtain ⟨h1, _⟩ := h
            subst h1
            rfl
          · exact ih _ _ _ _ _ h
    · simp only [Option.some.injEq, Prod.mk.injEq] at h
      obtain ⟨h1, _⟩ := h
      subst h1
      rfl

/-- The call `read_string` changes nothing but the read cursor. -/
theorem read_string_frame {p q : Packet} {x y : List Byte} {buf_size : Nat} {b : Bool}
    (h : read_string p x buf_size = some (q, y, b)) : q = { p with m_rpoz := q.m_rpoz } :=
  read_string_loop_frame p buf_size _ _ _ _ _ _ h

theorem read_string_loop_sz_frame (p : Packet) (buf_size : Nat) :
    ∀ (fuel i : Nat) (x y : List Byte) (q : Packet) (b : Bool),
      read_string_loop_sz p buf_size fuel i x = some (q, y, b) →
        q = { p with m_rpoz := q.m_rpoz } := by
  intro fuel
  induction fuel with
  | zero => intro i x y q b h; simp [read_string_loop_sz] at h
  | succ fuel ih =>
    intro i x y q b h
    unfold read_string_loop_sz at h
    split at h
    · cases hb : p.m_data[i]? with
      | none => simp [hb] at h
      | some c =>
        simp only [hb, Option.some_bind] at h
        cases hs : store x (i - p.m_rpoz) [c] with
        | none => simp [hs] at h
        | some x' =>
          simp only [hs, Option.some_bind] at h
          split at h
          · simp only [Option.some.injEq, Prod.mk.injEq] at h
            obtain ⟨h1, _⟩ := h
            subst h1
            rfl
          · exact ih _ _ _ _ _ h
    · simp only [Option.some.injEq, Prod.mk.injEq] at h
      obtain ⟨h1, _⟩ := h
      subst h1
      rfl

/-- The call `read_string`, with the arithmetic of `size_t`, changes nothing but the
read cursor. -/
theorem read_string_sz_frame {p q : Packet} {x y : List Byte} {buf_size : Nat} {b : Bool}
    (h : read_string_sz p x buf_size = some (q, y, b)) : q = { p with m_rpoz := q.m_rpoz } :=
  read_string_loop_sz_frame p buf_size _ _ _ _ _ _ h

theorem cstr_scan_le (x : Nat → Byte) :
    ∀ (fuel len n : Nat), cstr_scan x fuel len = some n → n ≤ max len 4096 := by
  intro fuel
  induction fuel with
  | zero => intro len n h; simp [cstr_scan] at h
  | succ fuel ih =>
    intro len n h
    unfold cstr_scan at h
    split at h
    · split at h
      · cases h; omega
      · have := ih _ _ h; omega
    · cases h; omega

end Packet

theorem step_inv (heap : Heap) {s t : Session} {op : Op} (hs : s.Inv)
    (h : step heap s op = some t) : t.Inv := by
  cases op with
  | shl x =>
    simp only [step, Option.map_eq_some'] at h
    obtain ⟨q, hq, rfl⟩ := h
    obtain ⟨hi, _, _, hw, _⟩ := Packet.append_eq_some heap hs.pkt hq
    exact ⟨hi, fun ph hph => by have := hs.issued ph hph; simp only; omega⟩
  | shl_string x =>
    simp only [step, Option.map_eq_some'] at h
    obtain ⟨q, hq, rfl⟩ := h
    obtain ⟨hi, _, _, hw, _⟩ := Packet.append_eq_some heap hs.pkt hq
    exact ⟨hi, fun ph hph => by have := hs.issued ph hph; simp only; omega⟩
  | shl_cstr x =>
    simp only [step, Option.map_eq_some'] at h
    obtain ⟨q, hq, rfl⟩ := h
    unfold Packet.operator_shl_cstr at hq
    cases hc : Packet.cstr_scan x 4097 0 with
    | none => simp [hc] at hq
    | some len =>
      simp only [hc, Option.some_bind] at hq
      obtain ⟨hi, _, _, hw, _⟩ := Packet.append_eq_some heap hs.pkt hq
      exact ⟨hi, fun ph hph => by have := hs.issued ph hph; simp only; omega⟩
  | append x size =>
    simp only [step, Option.map_eq_some'] at h
    obtain ⟨q, hq, rfl⟩ := h
    obtain ⟨hi, _, _, hw, _⟩ := Packet.append_eq_some heap hs.pkt hq
    exact ⟨hi, fun ph hph => by have := hs.issued ph hph; simp only; omega⟩
  | append_placeholder size =>
    simp only [step, Option.map_eq_some'] at h
    obtain ⟨r, hr, rfl⟩ := h
    unfold Packet.append_placeholder at hr
    cases he : Packet.ensure_wpoz_inc heap s.pkt size with
    | none => simp [he] at hr
    | some e =>
      simp only [he, Option.some_bind, Option.some.injEq] at hr
      subst hr
      obtain ⟨hi, _, _, hw, _, hle, _⟩ := Packet.ensure_wpoz_inc_eq_some heap hs.pkt he
      refine ⟨⟨hi.size_pos, ?_, hi.alloc⟩, ?_⟩
      · simp only; omega
      · intro ph hph
        simp only [List.mem_append, List.mem_singleton] at hph
        rcases hph with hph | rfl
        · have := hs.issued ph hph; simp only; omega
        · simp only; omega
  | write i x =>
    simp only [step, Option.bind_eq_some, Option.map_eq_some'] at h
    obtain ⟨ph, _, q, hq, rfl⟩ := h
    obtain ⟨_, h2, _, h4, h5⟩ := PlaceHolder.write_eq_some hq
    refine ⟨⟨?_, ?_, ?_⟩, ?_⟩
    · simp only [h2]; exact hs.pkt.size_pos
    · simp only [h4, h5]; exact hs.pkt.wpoz_le
    · simp only [h2, h5]; exact hs.pkt.alloc
    · intro ph hph; simp only [h4]; exact hs.issued ph hph
  | shr x =>
    simp only [step, Option.map_eq_some'] at h
    obtain ⟨⟨q, y⟩, hq, rfl⟩ := h
    have := Packet.operator_shr_frame hq
    exact ⟨by simp only; rw [this]; exact hs.pkt.of_rpoz _,
      fun ph hph => by simp only; rw [this]; exact hs.issued ph hph⟩
  | read x size =>
    simp only [step, Option.map_eq_some'] at h
    obtain ⟨⟨q, y, b⟩, hq, rfl⟩ := h
    have := Packet.read_frame hq
    exact ⟨by simp only; rw [this]; exact hs.pkt.of_rpoz _,
      fun ph hph => by simp only; rw [this]; exact hs.issued ph hph⟩
  | read_string x n =>
    simp only [step, Option.map_eq_some'] at h
    obtain ⟨⟨q, y, b⟩, hq, rfl⟩ := h
    have := Packet.read_string_sz_frame hq
    exact ⟨by simp only; rw [this]; exact hs.pkt.of_rpoz _,
      fun ph hph => by simp only; rw [this]; exact hs.issued ph hph⟩
  | read_end =>
    simp only [step, Option.some.injEq] at h
    subst h
    exact ⟨hs.pkt.of_rpoz _, hs.issued⟩

/-- Every reachable packet in use satisfies the invariant. -/
theorem Reachable.inv {heap : Heap} {s : Session} (h : Reachable heap s) : s.Inv := by
  induction h with
  | ofSize opcode size => exact ⟨Packet.init_inv heap size opcode, by simp⟩
  | ofData opcode data size p hp => exact ⟨Packet.init_data_inv heap hp, by simp⟩
  | copy s p _ hp _ => exact ⟨Packet.init_data_inv heap hp, by simp⟩
  | step s op t _ hst ih => exact step_inv heap ih hst

/-! ## Insertion, extraction and placeholders -/

namespace Packet

theorem shlAll_eq_appendAll (heap : Heap) :
    ∀ (vs : List (List Byte)) (p : Packet), shlAll heap p vs = appendAll heap p vs := by
  intro vs
  induction vs with
  | nil => intro p; rfl
  | cons v vs ih =>
    intro p
    simp only [shlAll, appendAll, operator_shl]
    cases append heap p v v.length with
    | none => rfl
    | some q => simp only [Option.some_bind]; exact ih q

/-- Extracting, in order, values of the widths of `vs` from a packet whose buffer holds
the representations of `vs` from the read cursor on, below the capacity. -/
theorem shrAll_spec :
    ∀ (vs dests : List (List Byte)) (p : Packet) (pre suf : List Byte),
      p.m_data = pre ++ vs.flatten ++ suf → p.m_rpoz = pre.length →
      pre.length + vs.flatten.length ≤ p.m_size →
      dests.map List.length = vs.map List.length →
      shrAll p dests = some ({ p with m_rpoz := pre.length + vs.flatten.length }, vs) := by
  intro vs
  induction vs with
  | nil =>
    intro dests p pre suf _ hr _ hd
    simp only [List.map_nil, List.map_eq_nil_iff] at hd
    subst hd
    simp only [shrAll, List.flatten_nil, List.length_nil, Nat.add_zero, ← hr]
  | cons v vs ih =>
    intro dests p pre suf hdata hr hsz hd
    cases dests with
    | nil => simp at hd
    | cons x xs =>
      simp only [List.map_cons, List.cons.injEq] at hd
      obtain ⟨hx, hxs⟩ := hd
      simp only [List.flatten_cons, List.length_append] at hsz
      have hload : load p.m_data p.m_rpoz x.length = some v := by
        unfold load
        rw [hdata, hr, hx]
        simp only [List.flatten_cons, List.length_append]
        rw [if_pos (by omega)]
        simp only [List.append_assoc, List.drop_left, List.take_left]
      have hguard : p.m_rpoz + x.length ≤ p.m_size := by omega
      have hstep : operator_shr p x = some ({ p with m_rpoz := p.m_rpoz + x.length }, v) := by
        simp only [operator_shr, if_pos hguard, hload, Option.some_bind]
      have hrec := ih xs { p with m_rpoz := p.m_rpoz + x.length } (pre ++ v) suf
        (by simp only [hdata, List.flatten_cons, List.append_assoc])
        (by simp only [List.length_append, hr, hx])
        (by simp only [List.length_append]; omega) hxs
      simp only [shrAll, hstep, Option.some_bind, hrec, List.length_append, List.flatten_cons,
        Nat.add_assoc]

end Packet

/-- C2 (growth correctness): for every opcode and initial capacity and every finite
sequence of byte strings appended in order to a packet created with
`Packet(opcode, capacity)`, all the appends have a result, `getLength()` is the sum of
the lengths of the strings, and the first `getLength()` bytes of `getData()` are their
concatenation, however many doublings the appends trigger. -/
theorem growth_correct (heap : Heap) (opcode capacity : Nat) (bs : List (List Byte)) :
    ∃ q, Packet.appendAll heap (Packet.ofSize heap opcode capacity) bs = some q ∧
      q.getLength = (bs.map List.length).sum ∧
      q.getData.take q.getLength = bs.flatten := by
  obtain ⟨q, hq, _, _, _, hw, hd⟩ :=
    Packet.appendAll_spec heap bs _ (Packet.init_inv heap capacity opcode)
  refine ⟨q, hq, ?_, ?_⟩
  · simp only [Packet.getLength, hw, List.length_flatten]
    simp [Packet.ofSize, Packet.init]
  · simp only [Packet.getLength, Packet.getData, hd]
    simp [Packet.ofSize, Packet.init]

/-- C1 (round trip): for every opcode, every initial capacity and every finite sequence
of fixed-size values `vs` (of any widths, so in particular each at least one byte
wide), inserting them in order with `operator <<` into a packet created with `Packet(opcode, capacity)` has a result, and
extracting values of the same widths in the same order with `operator >>` (into
variables `dests` of those widths, whatever they held) yields exactly `vs` and leaves
the packet valid. -/
theorem round_trip (heap : Heap) (opcode capacity : Nat) (vs dests : List (List Byte))
    (hdests : dests.map List.length = vs.map List.length) :
    ∃ q, Packet.shlAll heap (Packet.ofSize heap opcode capacity) vs = some q ∧
      ∃ r, Packet.shrAll q dests = some (r, vs) ∧ r.operator_bool = true := by
  obtain ⟨q, hq, hinv, _, hr, hw, hd⟩ :=
    Packet.appendAll_spec heap vs _ (Packet.init_inv heap capacity opcode)
  have hw0 : q.m_wpoz = vs.flatten.length := by
    rw [hw]; simp [Packet.ofSize, Packet.init]
  have hr0 : q.m_rpoz = 0 := by
    rw [hr]; simp [Packet.ofSize, Packet.init]
  have hd0 : q.m_data.take q.m_wpoz = vs.flatten := by
    rw [hd]; simp [Packet.ofSize, Packet.init]
  have hle := hinv.wpoz_le
  have hcap := hinv.alloc_le
  have hsplit : q.m_data = [] ++ vs.flatten ++ q.m_data.drop q.m_wpoz := by
    rw [List.nil_append, ← hd0, List.take_append_drop]
  refine ⟨q, by rw [Packet.shlAll_eq_appendAll]; exact hq,
    { q with m_rpoz := ([] : List Byte).length + vs.flatten.length }, ?_, ?_⟩
  · exact Packet.shrAll_spec vs dests q [] _ hsplit (by simp [hr0])
      (by simp only [List.length_nil]; omega) hdests
  · simp only [Packet.operator_bool, List.length_nil, decide_eq_true_eq]
    omega

/-- An instance of `round_trip`: three values of widths 2, 1 and 4 through a packet of
initial capacity 0. -/
theorem round_trip_witness :
    ([[0, 0], [0], [0, 0, 0, 0]] : List (List Byte)).map List.length =
      ([[1, 2], [3], [4, 5, 6, 7]] : List (List Byte)).map List.length ∧
    ∃ q, Packet.shlAll (fun _ => 0) (Packet.ofSize (fun _ => 0) 9 0)
        [[1, 2], [3], [4, 5, 6, 7]] = some q ∧
      ∃ r, Packet.shrAll q [[0, 0], [0], [0, 0, 0, 0]] = some (r, [[1, 2], [3], [4, 5, 6, 7]]) ∧
        r.operator_bool = true :=
  ⟨by decide,
    round_trip (fun _ => 0) 9 0 [[1, 2], [3], [4, 5, 6, 7]] [[0, 0], [0], [0, 0, 0, 0]]
      (by decide)⟩

/-- Overwriting `v.length` bytes at offset `w` of a block, seen through the first `n`
bytes of the block, when the overwritten range lies inside them. -/
theorem store_take_of_le {blk d v : List Byte} {w n : Nat}
    (h : store blk w v = some d) (hn : w + v.length ≤ n) (hlen : n ≤ blk.length) :
    d.take n = (blk.take n).take w ++ v ++ (blk.take n).drop (w + v.length) := by
  rw [store_eq_some _ _ _ (by omega)] at h
  cases h
  have h1 : blk.drop (w + v.length)
      = (blk.take n).drop (w + v.length) ++ blk.drop n := by
    conv_lhs => rw [← List.take_append_drop n blk]
    rw [List.drop_append_of_le_length (by simp; omega)]
  have h2 : (blk.take n).take w = blk.take w := by
    rw [List.take_take]; congr 1; omega
  rw [h1, h2, ← List.append_assoc]
  apply List.take_left'
  simp
  omega

/-- What `PlaceHolder::write` does when the placeholder lies below the write cursor. -/
theorem PlaceHolder.write_spec (ph : PlaceHolder) (p : Packet) (v : List Byte)
    (hv : v.length = ph.m_size) (hph : ph.m_wpoz + ph.m_size ≤ p.m_wpoz)
    (hw : p.m_wpoz ≤ p.m_data.length) :
    ∃ d, ph.write p v = some { p with m_data := d } ∧ d.length = p.m_data.length ∧
      d.take p.m_wpoz = (p.m_data.take p.m_wpoz).take ph.m_wpoz ++ v ++
        (p.m_data.take p.m_wpoz).drop (ph.m_wpoz + ph.m_size) := by
  have hst := store_eq_some p.m_data ph.m_wpoz v (by omega)
  refine ⟨_, ?_, store_length hst, ?_⟩
  · simp only [PlaceHolder.write, ← hv, memcpy_src, hst, Option.some_bind]
  · rw [← hv]
    exact store_take_of_le hst (by omega) hw

/-- C3 (placeholder correctness): for every reachable packet, every value `v` (of `k`
bytes) and every finite sequence `bs` of later appends, the calls
`append_placeholder(k)`, the appends, then `PlaceHolder::write(v)` all have a result,
and so do `append(v, k)` followed by the same appends; both ways end with the same
`getLength()` and the same first `getLength()` bytes of `getData()`, whether or not the
appends reallocate the buffer. -/
theorem placeholder_correct (heap : Heap) (s : Session) (hs : Reachable heap s)
    (v : List Byte) (bs : List (List Byte)) :
    ∃ p1 ph p2 p3 q1 q2,
      Packet.append_placeholder heap s.pkt v.length = some (p1, ph) ∧
      Packet.appendAll heap p1 bs = some p2 ∧
      ph.write p2 v = some p3 ∧
      Packet.append heap s.pkt v v.length = some q1 ∧
      Packet.appendAll heap q1 bs = some q2 ∧
      p3.getLength = q2.getLength ∧
      p3.getData.take p3.getLength = q2.getData.take q2.getLength := by
  have hp := hs.inv.pkt
  obtain ⟨e, he, hinv, _, _, hw, _, hle, hpre, _, _⟩ :=
    Packet.ensure_wpoz_inc_spec heap hp v.length
  have hinv1 : Packet.Inv { e with m_wpoz := e.m_wpoz + v.length } :=
    ⟨hinv.size_pos, by simp only; omega, hinv.alloc⟩
  obtain ⟨p2, hp2, hinv2, _, _, hw2, hd2⟩ := Packet.appendAll_spec heap bs _ hinv1
  simp only at hw2 hd2
  obtain ⟨d, hd, _, htake⟩ :=
    PlaceHolder.write_spec { m_size := v.length, m_wpoz := s.pkt.m_wpoz } p2 v rfl
      (by simp only; omega) hinv2.wpoz_le
  obtain ⟨q1, hq1, hinvq, _, _, hwq, _, hdq, _⟩ := Packet.append_spec heap hp v
  obtain ⟨q2, hq2, _, _, _, hwq2, hdq2⟩ := Packet.appendAll_spec heap bs q1 hinvq
  refine ⟨_, _, p2, _, q1, q2, ?_, hp2, hd, hq1, hq2, ?_, ?_⟩
  · simp only [Packet.append_placeholder, he, Option.some_bind]
  · simp only [Packet.getLength, hw2, hwq2, hwq, hw]
  · simp only [Packet.getLength, Packet.getData]
    rw [htake, hdq2, hdq, hd2]
    have hlen : (e.m_data.take (e.m_wpoz + v.length)).length = s.pkt.m_wpoz + v.length := by
      simp only [List.length_take]; omega
    have h1 : (e.m_data.take (e.m_wpoz + v.length) ++ bs.flatten).take s.pkt.m_wpoz
        = s.pkt.m_data.take s.pkt.m_wpoz := by
      rw [List.take_append_of_le_length (by omega), List.take_take]
      obtain ⟨t, ht⟩ := hpre
      rw [← ht, List.take_append_of_le_length (by have := hp.wpoz_le; omega)]
      congr 1
      omega
    have h2 : (e.m_data.take (e.m_wpoz + v.length) ++ bs.flatten).drop
        (s.pkt.m_wpoz + v.length) = bs.flatten := List.drop_left' hlen
    rw [h1, h2]

namespace Packet

/-- The loop of `read_string` never runs out of fuel once the fuel exceeds the number of
indices left to scan: any two such fuels give the same result. -/
theorem read_string_loop_fuel (p : Packet) (n : Nat) :
    ∀ (fuel fuel' i : Nat) (x : List Byte),
      min (p.m_rpoz + n) p.m_size - i < fuel → min (p.m_rpoz + n) p.m_size - i < fuel' →
      read_string_loop p n fuel i x = read_string_loop p n fuel' i x := by
  intro fuel
  induction fuel with
  | zero => intro fuel' i x h; omega
  | succ fuel ih =>
    intro fuel' i x h h'
    obtain ⟨m, rfl⟩ : ∃ m, fuel' = m + 1 := ⟨fuel' - 1, by omega⟩
    unfold read_string_loop
    by_cases hc : i < min (p.m_rpoz + n) p.m_size
    · rw [if_pos hc, if_pos hc]
      cases p.m_data[i]? with
      | none => rfl
      | some b =>
        simp only [Option.some_bind]
        cases store x (i - p.m_rpoz) [b] with
        | none => rfl
        | some x' =>
          simp only [Option.some_bind]
          by_cases hb : b = 0
          · rw [if_pos hb, if_pos hb]
          · rw [if_neg hb, if_neg hb]
            exact ih m (i + 1) x' (by omega) (by omega)
    · rw [if_neg hc, if_neg hc]

/-- The scan of `operator << (const char *)` never runs out of fuel once the fuel exceeds
the number of indices left below 4096: any two such fuels give the same result. -/
theorem cstr_scan_fuel (x : Nat → Byte) :
    ∀ (fuel fuel' len : Nat), 4096 - len < fuel → 4096 - len < fuel' →
      cstr_scan x fuel len = cstr_scan x fuel' len := by
  intro fuel
  induction fuel with
  | zero => intro fuel' len h; omega
  | succ fuel ih =>
    intro fuel' len h h'
    obtain ⟨m, rfl⟩ : ∃ m, fuel' = m + 1 := ⟨fuel' - 1, by omega⟩
    unfold cstr_scan
    by_cases hc : len < 4096
    · rw [if_pos hc, if_pos hc]
      by_cases hx : x len = 0
      · rw [if_pos hx, if_pos hx]
      · rw [if_neg hx, if_neg hx]
        exact ih m (len + 1) (by omega) (by omega)
    · rw [if_neg hc, if_neg hc]

end Packet

theorem store_at_append {a t : List Byte} (b : Byte) (ht : 1 ≤ t.length) :
    store (a ++ t) a.length [b] = some (a ++ [b] ++ t.drop 1) := by
  rw [store_eq_some _ _ _ (by simp; omega)]
  simp [List.take_left', List.drop_append]

namespace Packet

/-- The loop of `read_string` when the first terminator from index `i` on is at `k`,
inside the scanned range: the buffer `x0` has received the bytes at `m_rpoz .. i - 1`
so far and ends up with those at `m_rpoz .. k`. -/
theorem read_string_loop_found (p : Packet) (n : Nat) (x0 : List Byte) (k : Nat)
    (hcap : p.m_size ≤ p.m_data.length)
    (hk : k < min (p.m_rpoz + n) p.m_size) (hz : p.m_data[k]? = some 0)
    (hbuf : n ≤ x0.length) :
    ∀ (fuel i : Nat), p.m_rpoz ≤ i → i ≤ k →
      (∀ j, i ≤ j → j < k → p.m_data[j]? ≠ some 0) → k - i < fuel →
      read_string_loop p n fuel i
          ((p.m_data.drop p.m_rpoz).take (i - p.m_rpoz) ++ x0.drop (i - p.m_rpoz)) =
        some ({ p with m_rpoz := k + 1 },
          (p.m_data.drop p.m_rpoz).take (k + 1 - p.m_rpoz) ++ x0.drop (k + 1 - p.m_rpoz),
          true) := by
  intro fuel
  induction fuel with
  | zero => intro i _ _ _ h; omega
  | succ fuel ih =>
    intro i hri hik hnz hfuel
    have hi : i < p.m_data.length := by omega
    have hlen : ((p.m_data.drop p.m_rpoz).take (i - p.m_rpoz)).length = i - p.m_rpoz := by
      simp only [List.length_take, List.length_drop]; omega
    have hget : p.m_data[i]? = some p.m_data[i] := List.getElem?_eq_getElem hi
    have hst := store_at_append (a := (p.m_data.drop p.m_rpoz).take (i - p.m_rpoz))
      (t := x0.drop (i - p.m_rpoz)) p.m_data[i] (by simp only [List.length_drop]; omega)
    rw [hlen] at hst
    have hnext : (p.m_data.drop p.m_rpoz).take (i - p.m_rpoz) ++ [p.m_data[i]]
          ++ (x0.drop (i - p.m_rpoz)).drop 1
        = (p.m_data.drop p.m_rpoz).take (i + 1 - p.m_rpoz) ++ x0.drop (i + 1 - p.m_rpoz) := by
      have e1 : i + 1 - p.m_rpoz = (i - p.m_rpoz) + 1 := by omega
      rw [e1, List.take_succ, List.drop_drop]
      congr 2
      · rw [List.getElem?_drop]
        have e2 : p.m_rpoz + (i - p.m_rpoz) = i := by omega
        rw [e2, hget]
        rfl
    unfold read_string_loop
    rw [if_pos (by omega), hget]
    simp only [Option.some_bind, hst]
    by_cases hb : p.m_data[i] = 0
    · have hik' : i = k := by
        by_contra hne
        exact hnz i (le_refl _) (by omega) (by rw [hget, hb])
      subst hik'
      rw [if_pos hb, hnext]
    · rw [if_neg hb, hnext]
      have hne : i ≠ k := by
        intro h
        subst h
        rw [hget] at hz
        exact hb (Option.some.inj hz)
      exact ih (i + 1) (by omega) (by omega)
        (fun j h1 h2 => hnz j (by omega) h2) (by omega)

/-- The loop of `read_string` when no terminator lies in the scanned range from index
`i` on: it runs to the end of the range and latches the packet invalid. -/
theorem read_string_loop_none (p : Packet) (n : Nat)
    (hcap : p.m_size ≤ p.m_data.length) :
    ∀ (fuel i : Nat) (x : List Byte), p.m_rpoz ≤ i → n ≤ x.length →
      (∀ j, i ≤ j → j < min (p.m_rpoz + n) p.m_size → p.m_data[j]? ≠ some 0) →
      min (p.m_rpoz + n) p.m_size - i < fuel →
      ∃ y, read_string_loop p n fuel i x =
        some ({ p with m_rpoz := p.m_size + 1 }, y, false) := by
  intro fuel
  induction fuel with
  | zero => intro i x _ _ _ h; omega
  | succ fuel ih =>
    intro i x hri hbuf hnz hfuel
    unfold read_string_loop
    by_cases hc : i < min (p.m_rpoz + n) p.m_size
    · have hi : i < p.m_data.length := by omega
      have hget : p.m_data[i]? = some p.m_data[i] := List.getElem?_eq_getElem hi
      have hst := store_eq_some x (i - p.m_rpoz) [p.m_data[i]]
        (by simp only [List.length_singleton]; omega)
      have hb : p.m_data[i] ≠ 0 := by
        intro h
        exact hnz i (le_refl _) hc (by rw [hget, h])
      rw [if_pos hc, hget]
      simp only [Option.some_bind, hst, if_neg hb]
      exact ih (i + 1) _ (by omega) (by rw [store_length hst]; exact hbuf)
        (fun j h1 h2 => hnz j (by omega) h2) (by omega)
    · rw [if_neg hc]
      exact ⟨x, rfl⟩

end Packet

/-- The result of `read_string` where the buffer is as large as the capacity says: for
every packet whose buffer holds its `m_size` (capacity) bytes and every destination
buffer `x` of at least `n` bytes,
`read_string(x, n)` returns `true` exactly when the packet holds a zero byte at some
index `i` with `m_rpoz ≤ i < min(m_rpoz + n, m_size)`; with `i` the first such index,
`x[0 .. i - m_rpoz]` receives the packet bytes `m_rpoz .. i` (terminator included), the
rest of `x` is kept, and the read cursor becomes `i + 1`; when there is no such index
the call returns `false` and the read cursor becomes `m_size + 1`. -/
theorem read_string_result (p : Packet) (x : List Byte) (n : Nat)
    (hcap : p.m_size ≤ p.m_data.length) (hbuf : n ≤ x.length) :
    ((∃ q y, p.read_string x n = some (q, y, true)) ↔
      ∃ i, p.m_rpoz ≤ i ∧ i < min (p.m_rpoz + n) p.m_size ∧ p.m_data[i]? = some 0) ∧
    (∀ i, p.m_rpoz ≤ i → i < min (p.m_rpoz + n) p.m_size → p.m_data[i]? = some 0 →
      (∀ j, p.m_rpoz ≤ j → j < i → p.m_data[j]? ≠ some 0) →
      p.read_string x n = some ({ p with m_rpoz := i + 1 },
        (p.m_data.drop p.m_rpoz).take (i + 1 - p.m_rpoz) ++ x.drop (i + 1 - p.m_rpoz),
        true)) ∧
    ((¬ ∃ i, p.m_rpoz ≤ i ∧ i < min (p.m_rpoz + n) p.m_size ∧ p.m_data[i]? = some 0) →
      ∃ y, p.read_string x n = some ({ p with m_rpoz := p.m_size + 1 }, y, false)) := by
  have hfound : ∀ i, p.m_rpoz ≤ i → i < min (p.m_rpoz + n) p.m_size →
      p.m_data[i]? = some 0 → (∀ j, p.m_rpoz ≤ j → j < i → p.m_data[j]? ≠ some 0) →
      p.read_string x n = some ({ p with m_rpoz := i + 1 },
        (p.m_data.drop p.m_rpoz).take (i + 1 - p.m_rpoz) ++ x.drop (i + 1 - p.m_rpoz),
        true) := by
    intro i hri hi hz hnz
    have := Packet.read_string_loop_found p n x i hcap hi hz hbuf (p.m_size + 1) p.m_rpoz
      (le_refl _) hri hnz (by omega)
    simpa [Packet.read_string] using this
  have hnone : (¬ ∃ i, p.m_rpoz ≤ i ∧ i < min (p.m_rpoz + n) p.m_size ∧
      p.m_data[i]? = some 0) →
      ∃ y, p.read_string x n = some ({ p with m_rpoz := p.m_size + 1 }, y, false) := by
    intro hno
    exact Packet.read_string_loop_none p n hcap (p.m_size + 1) p.m_rpoz x (le_refl _) hbuf
      (fun j h1 h2 h3 => hno ⟨j, h1, h2, h3⟩) (by omega)
  refine ⟨⟨?_, ?_⟩, hfound, hnone⟩
  · rintro ⟨q, y, hq⟩
    by_contra hno
    obtain ⟨y', hy'⟩ := hnone hno
    rw [hy'] at hq
    simp at hq
  · intro hex
    classical
    have hmin := Nat.find_spec hex
    have hfirst : ∀ j, p.m_rpoz ≤ j → j < Nat.find hex → p.m_data[j]? ≠ some 0 := by
      intro j h1 h2 h3
      exact Nat.find_min hex h2 ⟨h1, by omega, h3⟩
    exact ⟨_, _, hfound _ hmin.1 hmin.2.1 hmin.2.2 hfirst⟩

namespace Packet

theorem latched_eq {p : Packet} (h : p.m_rpoz = p.m_size + 1) :
    { p with m_rpoz := p.m_size + 1 } = p := by
  cases p
  simp only at h
  subst h
  rfl

theorem operator_shr_of_gt {p : Packet} (x : List Byte) (h : p.m_size < p.m_rpoz + x.length) :
    p.operator_shr x = some ({ p with m_rpoz := p.m_size + 1 }, x) := by
  simp only [operator_shr, if_neg (Nat.not_le.mpr h)]

theorem read_of_gt {p : Packet} (x : List Byte) (size : Nat) (h : p.m_size < p.m_rpoz + size)
    (hw : p.m_rpoz + size < SIZE_MOD) (hs : p.m_size + 1 < SIZE_MOD) :
    p.read x size = some ({ p with m_rpoz := p.m_size + 1 }, x, false) := by
  simp only [read, Nat.mod_eq_of_lt hw, Nat.mod_eq_of_lt hs, gt_iff_lt, if_pos h]

theorem read_string_sz_of_ge {p : Packet} (x : List Byte) (n : Nat) (h : p.m_size ≤ p.m_rpoz) :
    p.read_string_sz x n = some ({ p with m_rpoz := (p.m_size + 1) % SIZE_MOD }, x, false) := by
  unfold read_string_sz read_string_loop_sz
  rw [if_neg (by omega)]

theorem read_string_of_ge {p : Packet} (x : List Byte) (n : Nat) (h : p.m_size ≤ p.m_rpoz) :
    p.read_string x n = some ({ p with m_rpoz := p.m_size + 1 }, x, false) := by
  unfold read_string read_string_loop
  rw [if_neg (by omega)]

theorem read_string_loop_false (p : Packet) (n : Nat) :
    ∀ (fuel i : Nat) (x y : List Byte) (q : Packet),
      read_string_loop p n fuel i x = some (q, y, false) → q.m_rpoz = p.m_size + 1 := by
  intro fuel
  induction fuel with
  | zero => intro i x y q h; simp [read_string_loop] at h
  | succ fuel ih =>
    intro i x y q h
    unfold read_string_loop at h
    split at h
    · cases hb : p.m_data[i]? with
      | none => simp [hb] at h
      | some c =>
        simp only [hb, Option.some_bind] at h
        cases hs : store x (i - p.m_rpoz) [c] with
        | none => simp [hs] at h
        | some x' =>
          simp only [hs, Option.some_bind] at h
          split at h
          · simp at h
          · exact ih _ _ _ _ h
    · simp only [Option.some.injEq, Prod.mk.injEq] at h
      obtain ⟨h1, _⟩ := h
      subst h1
      rfl

end Packet

/-- On a packet latched invalid (read cursor `m_size + 1`) `operator bool` is false and
every extraction that does not wrap fails and changes neither the packet nor its
destination: `operator >>` of any width, `read` of any size with
`m_rpoz + size < 2 ^ 64`, and `read_string` of any buffer size. -/
theorem latched_extractions (p : Packet) (h : p.m_rpoz = p.m_size + 1)
    (hs : p.m_size + 1 < Packet.SIZE_MOD) :
    p.operator_bool = false ∧
    (∀ x : List Byte, p.operator_shr x = some (p, x)) ∧
    (∀ (x : List Byte) (size : Nat), p.m_rpoz + size < Packet.SIZE_MOD →
      p.read x size = some (p, x, false)) ∧
    (∀ (x : List Byte) (n : Nat), p.read_string x n = some (p, x, false)) ∧
    (∀ (x : List Byte) (n : Nat), p.read_string_sz x n = some (p, x, false)) := by
  refine ⟨by simp [Packet.operator_bool, h], ?_, ?_, ?_, ?_⟩
  · intro x
    rw [Packet.operator_shr_of_gt x (by omega), Packet.latched_eq h]
  · intro x size hw
    rw [Packet.read_of_gt x size (by omega) hw hs, Packet.latched_eq h]
  · intro x n
    rw [Packet.read_string_of_ge x n (by omega), Packet.latched_eq h]
  · intro x n
    rw [Packet.read_string_sz_of_ge x n (by omega), Nat.mod_eq_of_lt hs, Packet.latched_eq h]

/-- C5 at a wrapping size: on a packet built from two bytes a four-byte `operator >>`
fails and latches the packet invalid (read cursor 3, capacity 2, `operator bool` false).
A later `read` asked for `2 ^ 64 - 3` bytes does not fail: the sum `m_rpoz + size` wraps
to 0, the test `m_rpoz + size > m_size` does not fire, and the call goes on to `memcpy`
of `2 ^ 64 - 3` bytes from outside the buffer, instead of returning `false` with the
cursor left at `m_size + 1`. -/
theorem latched_read_wraps :
    Packet.ofData (fun _ => 0) 1 [5, 6] 2 = some ⟨1, [5, 6], 2, 0, 2⟩ ∧
    (⟨1, [5, 6], 2, 0, 2⟩ : Packet).operator_shr [0, 0, 0, 0] =
      some (⟨1, [5, 6], 2, 3, 2⟩, [0, 0, 0, 0]) ∧
    (⟨1, [5, 6], 2, 3, 2⟩ : Packet).operator_bool = false ∧
    2 ^ 64 - 3 < Packet.SIZE_MOD ∧
    ((⟨1, [5, 6], 2, 3, 2⟩ : Packet).m_rpoz + (2 ^ 64 - 3)) % Packet.SIZE_MOD = 0 ∧
    (⟨1, [5, 6], 2, 3, 2⟩ : Packet).read [9] (2 ^ 64 - 3) = none ∧
    (⟨1, [5, 6], 2, 3, 2⟩ : Packet).read [9] (2 ^ 64 - 3) ≠
      some (⟨1, [5, 6], 2, 3, 2⟩, [9], false) := by
  decide

namespace Packet

/-- The scan of `operator << (const char *)` on a string whose terminator is at an index
`n` below 4096 stops right after the terminator. -/
theorem cstr_scan_short {x : Nat → Byte} {n : Nat} (hz : x n = 0) (hnz : ∀ i < n, x i ≠ 0)
    (hn : n < 4096) :
    ∀ (fuel len : Nat), len ≤ n → n - len < fuel → cstr_scan x fuel len = some (n + 1) := by
  intro fuel
  induction fuel with
  | zero => intro len _ h; omega
  | succ fuel ih =>
    intro len hlen hfuel
    unfold cstr_scan
    rw [if_pos (by omega)]
    by_cases hx : x len = 0
    · have : len = n := by
        by_contra hne
        exact hnz len (by omega) hx
      rw [if_pos hx, this]
    · have : len ≠ n := fun h => hx (h ▸ hz)
      rw [if_neg hx]
      exact ih (len + 1) (by omega) (by omega)

/-- The scan of `operator << (const char *)` on a string with no zero byte below index
4096 stops at 4096. -/
theorem cstr_scan_long {x : Nat → Byte} (hnz : ∀ i < 4096, x i ≠ 0) :
    ∀ (fuel len : Nat), len ≤ 4096 → 4096 - len < fuel → cstr_scan x fuel len = some 4096 := by
  intro fuel
  induction fuel with
  | zero => intro len _ h; omega
  | succ fuel ih =>
    intro len hlen hfuel
    unfold cstr_scan
    by_cases hc : len < 4096
    · rw [if_pos hc, if_neg (hnz len hc)]
      exact ih (len + 1) (by omega) (by omega)
    · rw [if_neg hc]
      congr 1
      omega

/-- The scan of `operator << (const char *)` reads its argument below index 4096 only. -/
theorem cstr_scan_congr {x y : Nat → Byte} (h : ∀ i < 4096, y i = x i) :
    ∀ (fuel len : Nat), cstr_scan y fuel len = cstr_scan x fuel len := by
  intro fuel
  induction fuel with
  | zero => intro len; rfl
  | succ fuel ih =>
    intro len
    unfold cstr_scan
    by_cases hc : len < 4096
    · rw [if_pos hc, if_pos hc, h len hc, ih]
    · rw [if_neg hc, if_neg hc]

theorem map_range_congr {x y : Nat → Byte} {len : Nat} (h : ∀ i < 4096, y i = x i)
    (hlen : len ≤ 4096) : (List.range len).map y = (List.range len).map x := by
  apply List.map_congr_left
  intro i hi
  exact h i (by have := List.mem_range.mp hi; omega)

theorem operator_shl_cstr_congr (heap : Heap) (p : Packet) {x y : Nat → Byte}
    (h : ∀ i < 4096, y i = x i) : operator_shl_cstr heap p y = operator_shl_cstr heap p x := by
  unfold operator_shl_cstr
  rw [cstr_scan_congr h]
  cases hc : cstr_scan x 4097 0 with
  | none => rfl
  | some len =>
    have := cstr_scan_le x _ _ _ hc
    simp only [Option.some_bind]
    rw [map_range_congr h (by omega)]

end Packet

/-- C8 (string insertion cap): for every reachable packet and every null-terminated
byte string `x` (`n` is `strlen(x)`: the first zero byte is `x[n]`),
`operator << (const char *)` has a result and appends exactly `min(n + 1, 4096)` bytes:
the `n` characters followed by the terminator when `n < 4096`, and the first 4096
characters, none of them zero, otherwise; the outcome is the same for any `y` that agrees
with `x` on the indices `0 .. 4095`, so the call never inspects `x` above index 4095. -/
theorem cstr_insert_cap (heap : Heap) (s : Session) (hs : Reachable heap s)
    (x : Nat → Byte) (n : Nat) (hz : x n = 0) (hnz : ∀ i < n, x i ≠ 0) :
    (∃ q, s.pkt.operator_shl_cstr heap x = some q ∧
      q.getLength = s.pkt.getLength + min (n + 1) 4096 ∧
      q.getData.take q.getLength = s.pkt.getData.take s.pkt.getLength ++
        (if n < 4096 then (List.range n).map x ++ [0] else (List.range 4096).map x)) ∧
    (4096 ≤ n → (0 : Byte) ∉ (List.range 4096).map x) ∧
    (∀ y : Nat → Byte, (∀ i < 4096, y i = x i) →
      s.pkt.operator_shl_cstr heap y = s.pkt.operator_shl_cstr heap x) := by
  have hp := hs.inv.pkt
  refine ⟨?_, ?_, fun y hy => Packet.operator_shl_cstr_congr heap s.pkt hy⟩
  · by_cases hn : n < 4096
    · have hscan := Packet.cstr_scan_short hz hnz hn 4097 0 (by omega) (by omega)
      obtain ⟨q, hq, _, _, _, hw, _, hd, _⟩ :=
        Packet.append_spec heap hp ((List.range (n + 1)).map x)
      simp only [List.length_map, List.length_range] at hq hw
      refine ⟨q, ?_, ?_, ?_⟩
      · simp only [Packet.operator_shl_cstr, hscan, Option.some_bind, hq]
      · simp only [Packet.getLength, hw]; omega
      · rw [if_pos hn]
        simp only [Packet.getLength, Packet.getData, hd, List.range_succ,
          List.map_append, List.map_cons, List.map_nil, hz]
    · have hscan := Packet.cstr_scan_long (x := x) (fun i hi => hnz i (by omega)) 4097 0
        (by omega) (by omega)
      obtain ⟨q, hq, _, _, _, hw, _, hd, _⟩ :=
        Packet.append_spec heap hp ((List.range 4096).map x)
      simp only [List.length_map, List.length_range] at hq hw
      refine ⟨q, ?_, ?_, ?_⟩
      · simp only [Packet.operator_shl_cstr, hscan, Option.some_bind, hq]
      · simp only [Packet.getLength, hw]; omega
      · rw [if_neg hn]
        simp only [Packet.getLength, Packet.getData, hd]
  · intro hn hmem
    simp only [List.mem_map, List.mem_range] at hmem
    obtain ⟨i, hi, hxi⟩ := hmem
    exact hnz i (by omega) hxi

/-- An instance of `placeholder_correct`: a two-byte placeholder on a packet that
already holds one byte, followed by appends that double the buffer twice. -/
theorem placeholder_correct_witness :
    Reachable (fun _ => 0) ⟨⟨5, [7, 0], 2, 0, 1⟩, []⟩ ∧
    ∃ p1 ph p2 p3 q1 q2,
      Packet.append_placeholder (fun _ => 0) ⟨5, [7, 0], 2, 0, 1⟩ [1, 2].length = some (p1, ph) ∧
      Packet.appendAll (fun _ => 0) p1 [[3], [4, 5]] = some p2 ∧
      ph.write p2 [1, 2] = some p3 ∧
      Packet.append (fun _ => 0) ⟨5, [7, 0], 2, 0, 1⟩ [1, 2] [1, 2].length = some q1 ∧
      Packet.appendAll (fun _ => 0) q1 [[3], [4, 5]] = some q2 ∧
      p3.getLength = q2.getLength ∧
      p3.getData.take p3.getLength = q2.getData.take q2.getLength :=
  have hr : Reachable (fun _ => 0) ⟨⟨5, [7, 0], 2, 0, 1⟩, []⟩ :=
    Reachable.step ⟨Packet.ofSize (fun _ => 0) 5 1, []⟩ (Op.shl [7]) _
      (Reachable.ofSize 5 1) (by decide)
  ⟨hr, placeholder_correct (fun _ => 0) ⟨⟨5, [7, 0], 2, 0, 1⟩, []⟩ hr [1, 2] [[3], [4, 5]]⟩

/-- An instance of `read_string_result`: the string `"AB"` is read from a four-byte
packet into a five-byte buffer. -/
theorem read_string_result_witness :
    (⟨1, [65, 66, 0, 67], 4, 0, 4⟩ : Packet).m_size
      ≤ (⟨1, [65, 66, 0, 67], 4, 0, 4⟩ : Packet).m_data.length ∧
    5 ≤ ([9, 9, 9, 9, 9] : List Byte).length ∧
    (⟨1, [65, 66, 0, 67], 4, 0, 4⟩ : Packet).read_string [9, 9, 9, 9, 9] 5 =
      some (⟨1, [65, 66, 0, 67], 4, 3, 4⟩, [65, 66, 0, 9, 9], true) :=
  ⟨by decide, by decide,
    (read_string_result ⟨1, [65, 66, 0, 67], 4, 0, 4⟩ [9, 9, 9, 9, 9] 5
      (by decide) (by decide)).2.1 2 (by decide) (by decide) (by decide) (by decide)⟩

namespace Packet

/-- The loop of `read_string` under the arithmetic of `size_t` never runs out of fuel
once the fuel exceeds the number of indices left to scan: any two such fuels give the
same result. -/
theorem read_string_loop_sz_fuel (p : Packet) (n : Nat) :
    ∀ (fuel fuel' i : Nat) (x : List Byte),
      min ((p.m_rpoz + n) % SIZE_MOD) p.m_size - i < fuel →
      min ((p.m_rpoz + n) % SIZE_MOD) p.m_size - i < fuel' →
      read_string_loop_sz p n fuel i x = read_string_loop_sz p n fuel' i x := by
  intro fuel
  induction fuel with
  | zero => intro fuel' i x h; omega
  | succ fuel ih =>
    intro fuel' i x h h'
    obtain ⟨m, rfl⟩ : ∃ m, fuel' = m + 1 := ⟨fuel' - 1, by omega⟩
    unfold read_string_loop_sz
    by_cases hc : i < min ((p.m_rpoz + n) % SIZE_MOD) p.m_size
    · rw [if_pos hc, if_pos hc]
      cases p.m_data[i]? with
      | none => rfl
      | some b =>
        simp only [Option.some_bind]
        cases store x (i - p.m_rpoz) [b] with
        | none => rfl
        | some x' =>
          simp only [Option.some_bind]
          by_cases hb : b = 0
          · rw [if_pos hb, if_pos hb]
          · rw [if_neg hb, if_neg hb]
            exact ih m (i + 1) x' (by omega) (by omega)
    · rw [if_neg hc, if_neg hc]

/-- Without wrap-around the loop of `read_string` under the arithmetic of `size_t` is the
loop with exact sums. -/
theorem read_string_loop_sz_eq (p : Packet) (n : Nat) (hw : p.m_rpoz + n < SIZE_MOD)
    (hs : p.m_size + 1 < SIZE_MOD) :
    ∀ (fuel i : Nat) (x : List Byte),
      read_string_loop_sz p n fuel i x = read_string_loop p n fuel i x := by
  intro fuel
  induction fuel with
  | zero => intro i x; rfl
  | succ fuel ih =>
    intro i x
    unfold read_string_loop_sz read_string_loop
    rw [Nat.mod_eq_of_lt hw, Nat.mod_eq_of_lt hs]
    by_cases hc : i < min (p.m_rpoz + n) p.m_size
    · rw [if_pos hc, if_pos hc]
      cases p.m_data[i]? with
      | none => rfl
      | some b =>
        simp only [Option.some_bind]
        cases store x (i - p.m_rpoz) [b] with
        | none => rfl
        | some x' =>
          simp only [Option.some_bind]
          by_cases hb : b = 0
          · rw [if_pos hb, if_pos hb]
          · rw [if_neg hb, if_neg hb]
            exact ih (i + 1) x'
    · rw [if_neg hc, if_neg hc]

/-- Without wrap-around (`m_rpoz + buf_size < 2 ^ 64` and `m_size + 1 < 2 ^ 64`)
`read_string` under the arithmetic of `size_t` is `read_string` with exact sums. -/
theorem read_string_sz_eq (p : Packet) (x : List Byte) (n : Nat)
    (hw : p.m_rpoz + n < SIZE_MOD) (hs : p.m_size + 1 < SIZE_MOD) :
    p.read_string_sz x n = p.read_string x n :=
  read_string_loop_sz_eq p n hw hs _ _ _

/-- Where the sum `m_rpoz + buf_size` wraps, the two differ: with the read cursor at 1 and
a buffer size of `2 ^ 64 - 1` the bound of the loop wraps to 0, the loop does not run and
the call fails, although the terminator is the next byte. -/
theorem read_string_sz_wraps :
    (⟨1, [65, 0], 2, 1, 2⟩ : Packet).read_string_sz [9] (2 ^ 64 - 1) =
      some (⟨1, [65, 0], 2, 3, 2⟩, [9], false) ∧
    (⟨1, [65, 0], 2, 1, 2⟩ : Packet).read_string [9] (2 ^ 64 - 1) =
      some (⟨1, [65, 0], 2, 2, 2⟩, [0], true) := by
  decide

end Packet

/-- C7 at the empty payload: a packet built with `Packet(opcode, data, 0)` has read
cursor 0, within its capacity `m_size = 1`, and holds no byte at all, so no zero byte at
an index in `[m_rpoz, min(m_rpoz + 1, m_size))`, for which C7 has `read_string(x, 1)`
return `false` and latch the packet invalid.  The loop of `read_string` runs all the
same, since `0 < min(0 + 1, 1)`, and reads `m_data[0]`, outside the zero-byte block,
with exact sums and with the arithmetic of `size_t` alike. -/
theorem read_string_empty_payload (heap : Heap) (opcode : Nat) (b : Byte) :
    ∃ p, Packet.ofData heap opcode [] 0 = some p ∧
      p.m_data = [] ∧ p.m_rpoz = 0 ∧ p.m_size = 1 ∧ p.m_rpoz ≤ p.m_size ∧
      (¬ ∃ i, p.m_rpoz ≤ i ∧ i < min (p.m_rpoz + 1) p.m_size ∧ p.m_data[i]? = some 0) ∧
      p.m_rpoz < min (p.m_rpoz + 1) p.m_size ∧
      p.read_string [b] 1 = none ∧ p.read_string_sz [b] 1 = none ∧
      p.read_string_sz [b] 1 ≠ some ({ p with m_rpoz := p.m_size + 1 }, [b], false) := by
  refine ⟨⟨opcode, [], 1, 0, 0⟩, ?_, rfl, rfl, rfl, ?_, ?_, ?_, ?_, ?_, ?_⟩
  · simp [Packet.ofData, Packet.init_data, Packet.init, memcpy, load, store, malloc]
  · simp
  · simp
  · simp
  · simp [Packet.read_string, Packet.read_string_loop]
  · simp [Packet.read_string_sz, Packet.read_string_loop_sz, Packet.SIZE_MOD]
  · simp [Packet.read_string_sz, Packet.read_string_loop_sz, Packet.SIZE_MOD]

/-- An instance of `cstr_insert_cap`: the string `"AA"` is inserted into a fresh packet. -/
theorem cstr_insert_cap_witness :
    Reachable (fun _ => 0) ⟨Packet.ofSize (fun _ => 0) 5 4, []⟩ ∧
    (fun i => if i < 2 then (65 : Byte) else 0) 2 = 0 ∧
    (∀ i < 2, (fun i => if i < 2 then (65 : Byte) else 0) i ≠ 0) ∧
    Packet.operator_shl_cstr (fun _ => 0) (Packet.ofSize (fun _ => 0) 5 4)
      (fun i => if i < 2 then (65 : Byte) else 0) = some ⟨5, [65, 65, 0, 0], 4, 0, 3⟩ ∧
    ∃ q, Packet.operator_shl_cstr (fun _ => 0) (Packet.ofSize (fun _ => 0) 5 4)
        (fun i => if i < 2 then (65 : Byte) else 0) = some q ∧
      q.getLength = (Packet.ofSize (fun _ => 0) 5 4).getLength + min (2 + 1) 4096 ∧
      q.getData.take q.getLength =
        (Packet.ofSize (fun _ => 0) 5 4).getData.take (Packet.ofSize (fun _ => 0) 5 4).getLength
          ++ (if 2 < 4096 then (List.range 2).map (fun i => if i < 2 then (65 : Byte) else 0)
                ++ [0]
              else (List.range 4096).map (fun i => if i < 2 then (65 : Byte) else 0)) :=
  ⟨Reachable.ofSize 5 4, by decide, by decide, by decide,
    (cstr_insert_cap (fun _ => 0) ⟨Packet.ofSize (fun _ => 0) 5 4, []⟩ (Reachable.ofSize 5 4)
      (fun i => if i < 2 then (65 : Byte) else 0) 2 (by decide) (by decide)).1⟩

/-- Extraction from a packet built from `n ≥ 1` borrowed bytes, with the read cursor at
`r`: the `k = x.length` bytes at `r` are returned and the cursor moves to `r + k` when
`r + k ≤ n`; otherwise the destination is kept and the packet is latched invalid. -/
theorem operator_shr_ofData (heap : Heap) (opcode : Nat) (data : List Byte)
    (hn : 1 ≤ data.length) (r : Nat) (x : List Byte) :
    ∃ p, Packet.ofData heap opcode data data.length = some p ∧
      p.m_size = data.length ∧ p.m_rpoz = 0 ∧
      ({ p with m_rpoz := r } : Packet).operator_shr x =
        if r + x.length ≤ data.length then
          some ({ p with m_rpoz := r + x.length }, (data.drop r).take x.length)
        else some ({ p with m_rpoz := data.length + 1 }, x) := by
  cases hp : Packet.ofData heap opcode data data.length with
  | none =>
    simp [Packet.ofData, Packet.init_data, Packet.init, memcpy, load, store, malloc] at hp
  | some p =>
    obtain ⟨_, hd, _, hs, hr, _⟩ := Packet.init_data_spec heap hp
    rw [List.take_length] at hd
    have hs' : p.m_size = data.length := by rw [hs]; omega
    refine ⟨p, rfl, hs', hr, ?_⟩
    unfold Packet.operator_shr
    simp only [hs', hd]
    by_cases hg : r + x.length ≤ data.length
    · rw [if_pos hg, if_pos hg, load_eq_some hg]
      rfl
    · rw [if_neg hg, if_neg hg]

/-- C4 at the empty payload: a packet built with `Packet(opcode, data, 0)` has no byte
in its buffer and read cursor 0, yet `m_size` is 1, so the test
`m_rpoz + sizeof(T) <= m_size` of `operator >>` passes for a one-byte value although
`0 + 1 ≤ 0` is false; the call then reads `m_data[0]`, outside the zero-byte block,
instead of keeping the destination and latching the packet invalid. -/
theorem operator_shr_empty_payload (heap : Heap) (opcode : Nat) (b : Byte) :
    ∃ p, Packet.ofData heap opcode [] 0 = some p ∧
      p.m_data = [] ∧ p.m_rpoz = 0 ∧ p.m_size = 1 ∧
      p.m_rpoz + [b].length ≤ p.m_size ∧ ¬ (p.m_rpoz + [b].length ≤ 0) ∧
      p.operator_shr [b] = none ∧
      p.operator_shr [b] ≠ some ({ p with m_rpoz := p.m_size + 1 }, [b]) := by
  refine ⟨⟨opcode, [], 1, 0, 0⟩, ?_, rfl, rfl, rfl, ?_, ?_, ?_, ?_⟩
  · simp [Packet.ofData, Packet.init_data, Packet.init, memcpy, load, store, malloc]
  · simp
  · simp
  · simp [Packet.operator_shr, load]
  · simp [Packet.operator_shr, load]

/-- C6 at a growing insertion: on a packet created with `Packet(7, 1)` a two-byte
extraction fails and leaves the packet invalid (read cursor 2, capacity 1); appending
one byte then doubles the capacity to 2, and `operator bool` is true again. -/
theorem growth_revalidates :
    (Packet.ofSize (fun _ => 0) 7 1).operator_shr [0, 0] = some (⟨7, [0], 1, 2, 0⟩, [0, 0]) ∧
    (⟨7, [0], 1, 2, 0⟩ : Packet).operator_bool = false ∧
    Packet.append (fun _ => 0) ⟨7, [0], 1, 2, 0⟩ [1] 1 = some ⟨7, [1, 0], 2, 2, 1⟩ ∧
    (⟨7, [1, 0], 2, 2, 1⟩ : Packet).operator_bool = true := by
  decide

/-- With no wrap-around the bounds check of `read` is the exact-integer one: the call
fails and latches when `m_rpoz + size > m_size`, and copies `size` bytes otherwise.
`read_sz` is `read`. -/
theorem read_sz_no_wrap (p : Packet) (x : List Byte) (size : Nat)
    (h1 : p.m_rpoz + size < Packet.SIZE_MOD) (h2 : p.m_size + 1 < Packet.SIZE_MOD) :
    p.read_sz x size = p.read x size ∧
    p.read_sz x size =
      if p.m_rpoz + size > p.m_size then
        some ({ p with m_rpoz := p.m_size + 1 }, x, false)
      else
        (memcpy x 0 p.m_data p.m_rpoz size).bind (fun x =>
          some ({ p with m_rpoz := p.m_rpoz + size }, x, true)) := by
  refine ⟨rfl, ?_⟩
  simp only [Packet.read_sz, Nat.mod_eq_of_lt h1, Nat.mod_eq_of_lt h2]

/-- C9 at a wrapping size: on a four-byte packet with the read cursor at 1, `read` is
asked for `2 ^ 64 - 1` bytes.  As exact integers `1 + (2 ^ 64 - 1) > 4`, but the sum
wraps to 0, the test `m_rpoz + size > m_size` does not fire, and the call goes on to
`memcpy` of `2 ^ 64 - 1` bytes, outside the buffer, instead of returning `false` and
latching the packet invalid. -/
theorem read_sz_wraps :
    Packet.ofData (fun _ => 0) 1 [1, 2, 3, 4] 4 = some ⟨1, [1, 2, 3, 4], 4, 0, 4⟩ ∧
    (⟨1, [1, 2, 3, 4], 4, 0, 4⟩ : Packet).operator_shr [0] =
      some (⟨1, [1, 2, 3, 4], 4, 1, 4⟩, [1]) ∧
    2 ^ 64 - 1 < Packet.SIZE_MOD ∧
    ¬ ((⟨1, [1, 2, 3, 4], 4, 1, 4⟩ : Packet).m_rpoz + (2 ^ 64 - 1)
        ≤ (⟨1, [1, 2, 3, 4], 4, 1, 4⟩ : Packet).m_size) ∧
    ((⟨1, [1, 2, 3, 4], 4, 1, 4⟩ : Packet).m_rpoz + (2 ^ 64 - 1)) % Packet.SIZE_MOD = 0 ∧
    (⟨1, [1, 2, 3, 4], 4, 1, 4⟩ : Packet).read_sz [9] (2 ^ 64 - 1) = none ∧
    (⟨1, [1, 2, 3, 4], 4, 1, 4⟩ : Packet).read_sz [9] (2 ^ 64 - 1) ≠
      some (⟨1, [1, 2, 3, 4], 4, 5, 4⟩, [9], false) := by
  decide

/-- What `read_end` does, and what follows it without wrap-around: for every packet
state `read_end()` sets the read cursor to `m_size` and changes neither the opcode, the
write cursor, the capacity nor the buffer, and `operator bool` is true right afterwards;
a following `operator >>` of a value of width `≥ 1`, `read` of a size `≥ 1` with
`m_size + size < 2 ^ 64`, and `read_string` with any buffer size fail: they keep their
destination and latch the packet invalid. -/
theorem read_end_no_wrap (p : Packet) (x : List Byte) (size n : Nat)
    (hx : 1 ≤ x.length) (hsize : 1 ≤ size) (hw : p.m_size + size < Packet.SIZE_MOD) :
    p.read_end.m_rpoz = p.read_end.m_size ∧ p.read_end.operator_bool = true ∧
    p.read_end.m_opcode = p.m_opcode ∧ p.read_end.m_wpoz = p.m_wpoz ∧
    p.read_end.m_size = p.m_size ∧ p.read_end.m_data = p.m_data ∧
    p.read_end.operator_shr x = some ({ p with m_rpoz := p.m_size + 1 }, x) ∧
    ({ p with m_rpoz := p.m_size + 1 } : Packet).operator_bool = false ∧
    p.read_end.read x size = some ({ p with m_rpoz := p.m_size + 1 }, x, false) ∧
    p.read_end.read_string x n = some ({ p with m_rpoz := p.m_size + 1 }, x, false) ∧
    p.read_end.read_string_sz x n = some ({ p with m_rpoz := p.m_size + 1 }, x, false) := by
  have h1 : p.m_size + 1 < Packet.SIZE_MOD := by omega
  refine ⟨rfl, by simp [Packet.read_end, Packet.operator_bool], rfl, rfl, rfl, rfl,
    ?_, ?_, ?_, ?_, ?_⟩
  · exact Packet.operator_shr_of_gt (p := p.read_end) x (by simp only [Packet.read_end]; omega)
  · simp [Packet.operator_bool]
  · exact Packet.read_of_gt (p := p.read_end) x size (by simp only [Packet.read_end]; omega)
      (by simp only [Packet.read_end]; omega) h1
  · exact Packet.read_string_of_ge (p := p.read_end) x n (by simp only [Packet.read_end]; omega)
  · have h2 := Packet.read_string_sz_of_ge (p := p.read_end) x n
      (by simp only [Packet.read_end]; omega)
    simp only [Packet.read_end, Nat.mod_eq_of_lt h1] at h2 ⊢
    exact h2

/-- C10 at a wrapping size: on a packet of capacity 4, `read_end()` sets the read cursor
to 4 and leaves the rest of the state as it was, and `operator bool` is true.  A
following `read` of `2 ^ 64 - 4` bytes, which is at least one byte, does not fail: the
sum `m_rpoz + size` wraps to 0, the test `m_rpoz + size > m_size` does not fire, and the
call goes on to `memcpy` of `2 ^ 64 - 4` bytes from outside the buffer, instead of
returning `false` and latching the packet invalid. -/
theorem read_end_read_wraps :
    (⟨1, [1, 2, 3, 4], 4, 1, 4⟩ : Packet).read_end = ⟨1, [1, 2, 3, 4], 4, 4, 4⟩ ∧
    (⟨1, [1, 2, 3, 4], 4, 4, 4⟩ : Packet).operator_bool = true ∧
    1 ≤ 2 ^ 64 - 4 ∧ 2 ^ 64 - 4 < Packet.SIZE_MOD ∧
    ((⟨1, [1, 2, 3, 4], 4, 4, 4⟩ : Packet).m_rpoz + (2 ^ 64 - 4)) % Packet.SIZE_MOD = 0 ∧
    (⟨1, [1, 2, 3, 4], 4, 4, 4⟩ : Packet).read [9] (2 ^ 64 - 4) = none ∧
    (⟨1, [1, 2, 3, 4], 4, 4, 4⟩ : Packet).read [9] (2 ^ 64 - 4) ≠
      some (⟨1, [1, 2, 3, 4], 4, 5, 4⟩, [9], false) := by
  decide

/-! ## Capacity, placeholders and termination -/

namespace Packet

/-- The capacity the loop of `ensure_wpoz_inc` ends with is the first of
`m_size, 2 * m_size, 4 * m_size, ...` that exceeds `m_wpoz + size`. -/
theorem ensure_loop_least (heap : Heap) (size : Nat) :
    ∀ (fuel : Nat) (p q : Packet), ensure_loop heap fuel p size = some q →
      ∃ k, q.m_size = p.m_size * 2 ^ k ∧ p.m_wpoz + size < q.m_size ∧
        ∀ j, j < k → p.m_size * 2 ^ j ≤ p.m_wpoz + size := by
  intro fuel
  induction fuel with
  | zero => intro p q h; simp [ensure_loop] at h
  | succ fuel ih =>
    intro p q h
    unfold ensure_loop at h
    by_cases hc : p.m_wpoz + size ≥ p.m_size
    · rw [if_pos hc] at h
      obtain ⟨k, hk, hlt, hmin⟩ := ih _ _ h
      have hg : (grow heap p).m_size = 2 * p.m_size := rfl
      have hw : (grow heap p).m_wpoz = p.m_wpoz := rfl
      rw [hg] at hk
      rw [hw] at hlt hmin
      refine ⟨k + 1, by rw [hk, pow_succ]; ring, hlt, ?_⟩
      intro j hj
      cases j with
      | zero => simpa using hc
      | succ j =>
        have := hmin j (by omega)
        rw [hg] at this
        rw [pow_succ]
        calc p.m_size * (2 ^ j * 2) = 2 * p.m_size * 2 ^ j := by ring
          _ ≤ p.m_wpoz + size := this
    · rw [if_neg hc] at h
      cases h
      exact ⟨0, by simp, by omega, fun j hj => by omega⟩

end Packet

/-- C12 (capacity after append): for every reachable packet with write cursor `w` and
capacity `c` and every byte string of length `s`, `append` has a result; the capacity
becomes `c * 2 ^ k` for the least `k ≥ 0` with `c * 2 ^ k > w + s`, so it is unchanged
exactly when `c > w + s` (the buffer is doubled also when `w + s = c`), and the write
cursor moves to `w + s`. -/
theorem capacity_after_append (heap : Heap) (s : Session) (hs : Reachable heap s)
    (x : List Byte) :
    ∃ q k, Packet.append heap s.pkt x x.length = some q ∧
      q.m_size = s.pkt.m_size * 2 ^ k ∧
      s.pkt.m_wpoz + x.length < s.pkt.m_size * 2 ^ k ∧
      (∀ j, j < k → s.pkt.m_size * 2 ^ j ≤ s.pkt.m_wpoz + x.length) ∧
      q.m_wpoz = s.pkt.m_wpoz + x.length ∧
      (q.m_size = s.pkt.m_size ↔ s.pkt.m_wpoz + x.length < s.pkt.m_size) := by
  have hp := hs.inv.pkt
  obtain ⟨q, hq, _, _, _, hw, _, _, _⟩ := Packet.append_spec heap hp x
  obtain ⟨e, he, _, _, _, _, _, _, _, _, _⟩ := Packet.ensure_wpoz_inc_spec heap hp x.length
  obtain ⟨k, hk, hlt, hmin⟩ := Packet.ensure_loop_least heap x.length _ _ _ he
  have hqe : q.m_size = e.m_size := by
    have h := hq
    unfold Packet.append at h
    rw [he] at h
    simp only [Option.some_bind, Option.bind_eq_some, Option.some.injEq] at h
    obtain ⟨d, _, rfl⟩ := h
    rfl
  refine ⟨q, k, hq, by rw [hqe, hk], by rw [← hk]; exact hlt, hmin, hw, ?_⟩
  rw [hqe, hk]
  have hpos := hp.size_pos
  constructor
  · intro h
    cases k with
    | zero => simpa [hk] using hlt
    | succ k =>
      exfalso
      have h2 : 2 ≤ 2 ^ (k + 1) := by
        rw [pow_succ]
        have := Nat.pos_pow_of_pos k (show 0 < 2 by omega)
        omega
      have : s.pkt.m_size * 2 ≤ s.pkt.m_size * 2 ^ (k + 1) := Nat.mul_le_mul_left _ h2
      omega
  · intro h
    cases k with
    | zero => simp
    | succ k =>
      exfalso
      have := hmin 0 (by omega)
      simp at this
      omega

/-- An instance of `capacity_after_append`: one byte appended to a packet created with
`Packet(5, 1)` fills the capacity exactly, and the buffer is doubled. -/
theorem capacity_after_append_witness :
    Reachable (fun _ => 0) ⟨Packet.ofSize (fun _ => 0) 5 1, []⟩ ∧
    ∃ q k, Packet.append (fun _ => 0) (Packet.ofSize (fun _ => 0) 5 1) [9] [9].length = some q ∧
      q.m_size = (Packet.ofSize (fun _ => 0) 5 1).m_size * 2 ^ k ∧
      (Packet.ofSize (fun _ => 0) 5 1).m_wpoz + [9].length
        < (Packet.ofSize (fun _ => 0) 5 1).m_size * 2 ^ k ∧
      (∀ j, j < k → (Packet.ofSize (fun _ => 0) 5 1).m_size * 2 ^ j
        ≤ (Packet.ofSize (fun _ => 0) 5 1).m_wpoz + [9].length) ∧
      q.m_wpoz = (Packet.ofSize (fun _ => 0) 5 1).m_wpoz + [9].length ∧
      (q.m_size = (Packet.ofSize (fun _ => 0) 5 1).m_size ↔
        (Packet.ofSize (fun _ => 0) 5 1).m_wpoz + [9].length
          < (Packet.ofSize (fun _ => 0) 5 1).m_size) :=
  ⟨Reachable.ofSize 5 1,
    capacity_after_append (fun _ => 0) ⟨Packet.ofSize (fun _ => 0) 5 1, []⟩
      (Reachable.ofSize 5 1) [9]⟩

/-- The frame of a placeholder with exact sums: for every reachable packet with write
cursor `w` and every `k`-byte value `v`, `append_placeholder(k)` has a result, moves the write cursor to
exactly `w + k` and changes neither the read cursor, the opcode nor any byte below index
`w`; and after any sequence `bs` of appends (which all have a result), `write(v)` on the
placeholder has a result that differs from the packet it is applied to in the `k` bytes
at indices `w .. w + k - 1` of the buffer only, which become `v`: the other bytes, the
cursors, the opcode and the capacity are unchanged. -/
theorem placeholder_frame (heap : Heap) (s : Session) (hs : Reachable heap s)
    (v : List Byte) (bs : List (List Byte)) :
    ∃ p1 ph p2,
      Packet.append_placeholder heap s.pkt v.length = some (p1, ph) ∧
      p1.m_wpoz = s.pkt.m_wpoz + v.length ∧ p1.m_rpoz = s.pkt.m_rpoz ∧
      p1.m_opcode = s.pkt.m_opcode ∧
      p1.m_data.take s.pkt.m_wpoz = s.pkt.m_data.take s.pkt.m_wpoz ∧
      Packet.appendAll heap p1 bs = some p2 ∧
      s.pkt.m_wpoz + v.length ≤ p2.m_data.length ∧
      ph.write p2 v = some { p2 with
        m_data := p2.m_data.take s.pkt.m_wpoz ++ v ++
          p2.m_data.drop (s.pkt.m_wpoz + v.length) } := by
  have hp := hs.inv.pkt
  obtain ⟨e, he, hinv, ho, hr, hw, _, hle, hpre, _, _⟩ :=
    Packet.ensure_wpoz_inc_spec heap hp v.length
  have hinv1 : Packet.Inv { e with m_wpoz := e.m_wpoz + v.length } :=
    ⟨hinv.size_pos, by simp only; omega, hinv.alloc⟩
  obtain ⟨p2, hp2, hinv2, _, _, hw2, _⟩ := Packet.appendAll_spec heap bs _ hinv1
  simp only at hw2
  have hlen : s.pkt.m_wpoz + v.length ≤ p2.m_data.length := by
    have := hinv2.wpoz_le
    omega
  refine ⟨{ e with m_wpoz := e.m_wpoz + v.length },
    { m_size := v.length, m_wpoz := s.pkt.m_wpoz }, p2, ?_, ?_, hr, ho, ?_, hp2, hlen, ?_⟩
  · simp only [Packet.append_placeholder, he, Option.some_bind]
  · simp only [hw]
  · obtain ⟨t, ht⟩ := hpre
    simp only
    rw [← ht, List.take_append_of_le_length hp.wpoz_le]
  · simp only [PlaceHolder.write, memcpy_src, store_eq_some _ _ _ hlen, Option.some_bind]

/-- An instance of `placeholder_frame`: a two-byte placeholder at offset 1, filled after
appends that double the buffer twice. -/
theorem placeholder_frame_witness :
    Reachable (fun _ => 0) ⟨⟨5, [7, 0], 2, 0, 1⟩, []⟩ ∧
    ∃ p1 ph p2,
      Packet.append_placeholder (fun _ => 0) ⟨5, [7, 0], 2, 0, 1⟩ [1, 2].length = some (p1, ph) ∧
      p1.m_wpoz = 1 + [1, 2].length ∧ p1.m_rpoz = 0 ∧ p1.m_opcode = 5 ∧
      p1.m_data.take 1 = ([7, 0] : List Byte).take 1 ∧
      Packet.appendAll (fun _ => 0) p1 [[3], [4, 5]] = some p2 ∧
      1 + [1, 2].length ≤ p2.m_data.length ∧
      ph.write p2 [1, 2] = some { p2 with
        m_data := p2.m_data.take 1 ++ [1, 2] ++ p2.m_data.drop (1 + [1, 2].length) } :=
  have hr : Reachable (fun _ => 0) ⟨⟨5, [7, 0], 2, 0, 1⟩, []⟩ :=
    Reachable.step ⟨Packet.ofSize (fun _ => 0) 5 1, []⟩ (Op.shl [7]) _
      (Reachable.ofSize 5 1) (by decide)
  ⟨hr, placeholder_frame (fun _ => 0) ⟨⟨5, [7, 0], 2, 0, 1⟩, []⟩ hr [1, 2] [[3], [4, 5]]⟩

namespace Packet

/-- More fuel does not change the result of the loop of `ensure_wpoz_inc` under the
arithmetic of `size_t`. -/
theorem ensure_loop_sz_mono (heap : Heap) (size : Nat) :
    ∀ (fuel : Nat) (p q : Packet), ensure_loop_sz heap fuel p size = some q →
      ∀ fuel', fuel ≤ fuel' → ensure_loop_sz heap fuel' p size = some q := by
  intro fuel
  induction fuel with
  | zero => intro p q h; simp [ensure_loop_sz] at h
  | succ fuel ih =>
    intro p q h fuel' hle
    obtain ⟨m, rfl⟩ : ∃ m, fuel' = m + 1 := ⟨fuel' - 1, by omega⟩
    unfold ensure_loop_sz at h ⊢
    split
    · next hc =>
      rw [if_pos hc] at h
      exact ih _ _ h m (by omega)
    · next hc =>
      rw [if_neg hc] at h
      exact h

/-- When the loop of `ensure_wpoz_inc` exits under the arithmetic of `size_t`, it does so
after some number `j` of doublings, with a capacity that is positive and, for `j ≥ 1`,
equal to `m_size * 2 ^ j` modulo `2 ^ 64`. -/
theorem ensure_loop_sz_exit (heap : Heap) (size : Nat) :
    ∀ (fuel : Nat) (p q : Packet), ensure_loop_sz heap fuel p size = some q →
      ∃ j, j < fuel ∧ ensure_loop_sz heap (j + 1) p size = some q ∧ 0 < q.m_size ∧
        q.m_size = if j = 0 then p.m_size else (p.m_size * 2 ^ j) % SIZE_MOD := by
  intro fuel
  induction fuel with
  | zero => intro p q h; simp [ensure_loop_sz] at h
  | succ fuel ih =>
    intro p q h
    unfold ensure_loop_sz at h
    by_cases hc : (p.m_wpoz + size) % SIZE_MOD ≥ p.m_size
    · rw [if_pos hc] at h
      obtain ⟨j, hj, hrun, hpos, hsize⟩ := ih _ _ h
      refine ⟨j + 1, by omega, ?_, hpos, ?_⟩
      · rw [ensure_loop_sz, if_pos hc]
        exact hrun
      · rw [if_neg (by omega), hsize]
        have hg : (grow_sz heap p).m_size = (2 * p.m_size) % SIZE_MOD := rfl
        by_cases hj0 : j = 0
        · subst hj0
          simp only [if_true, hg]
          congr 1
          ring
        · rw [if_neg hj0, hg, Nat.mod_mul_mod]
          congr 1
          rw [pow_succ]
          ring
    · rw [if_neg hc] at h
      cases h
      refine ⟨0, by omega, ?_, by omega, by simp⟩
      rw [ensure_loop_sz, if_neg hc]

/-- The fuel built into `ensure_wpoz_inc_sz` is enough: whenever some fuel reaches the
exit of the loop, 64 tests of the condition reach it too. -/
theorem ensure_loop_sz_fuel (heap : Heap) {p q : Packet} {size fuel : Nat}
    (h : ensure_loop_sz heap fuel p size = some q) :
    ensure_wpoz_inc_sz heap p size = some q := by
  obtain ⟨j, _, hrun, hpos, hsize⟩ := ensure_loop_sz_exit heap size fuel p q h
  have hj : j < 64 := by
    by_contra hge
    have h64 : 64 ≤ j := by omega
    rw [if_neg (by omega)] at hsize
    have hdvd : SIZE_MOD ∣ p.m_size * 2 ^ j :=
      Dvd.dvd.mul_left (Nat.pow_dvd_pow 2 h64) _
    rw [Nat.mod_eq_zero_of_dvd hdvd] at hsize
    omega
  exact ensure_loop_sz_mono heap size _ _ _ hrun 64 (by omega)

/-- Without wrap-around the loop of `ensure_wpoz_inc` under the arithmetic of `size_t`
is the loop with exact sums. -/
theorem ensure_loop_sz_eq (heap : Heap) (size : Nat) :
    ∀ (fuel : Nat) (p : Packet), 2 * (p.m_wpoz + size) < SIZE_MOD →
      ensure_loop_sz heap fuel p size = ensure_loop heap fuel p size := by
  intro fuel
  induction fuel with
  | zero => intro p _; rfl
  | succ fuel ih =>
    intro p hw
    have h1 : (p.m_wpoz + size) % SIZE_MOD = p.m_wpoz + size := Nat.mod_eq_of_lt (by omega)
    unfold ensure_loop_sz ensure_loop
    rw [h1]
    by_cases hc : p.m_wpoz + size ≥ p.m_size
    · rw [if_pos hc, if_pos hc]
      have h2 : (2 * p.m_size) % SIZE_MOD = 2 * p.m_size := Nat.mod_eq_of_lt (by omega)
      have hg : grow_sz heap p = grow heap p := by
        simp only [grow_sz, grow, h2]
      rw [hg]
      exact ih (grow heap p) hw
    · rw [if_neg hc, if_neg hc]

/-- Without wrap-around (`2 * (m_wpoz + size) < 2 ^ 64`) `append_placeholder` under the
arithmetic of `size_t` is `append_placeholder` with exact sums, on every packet that
satisfies the invariant. -/
theorem append_placeholder_sz_eq (heap : Heap) {p : Packet} (hp : Inv p) (size : Nat)
    (hw : 2 * (p.m_wpoz + size) < SIZE_MOD) :
    append_placeholder_sz heap p size = append_placeholder heap p size := by
  obtain ⟨e, he, _, _, _, hwe, _⟩ := ensure_wpoz_inc_spec heap hp size
  have h1 : ensure_loop_sz heap (p.m_wpoz + size + 2) p size = some e := by
    rw [ensure_loop_sz_eq heap size _ p hw]
    exact he
  have h2 := ensure_loop_sz_fuel heap h1
  have h3 : (e.m_wpoz + size) % SIZE_MOD = e.m_wpoz + size :=
    Nat.mod_eq_of_lt (by rw [hwe]; omega)
  simp only [append_placeholder_sz, append_placeholder, h2, he, Option.some_bind, h3]

end Packet

/-- C13 at a wrapping size: on a packet created with `Packet(5, 4)` that holds three
bytes (write cursor 3), `append_placeholder(2 ^ 64 - 2)` returns normally, but the write
cursor is not `3 + (2 ^ 64 - 2)`: the sum wraps to 1, so the test of `ensure_wpoz_inc`
does not fire, the buffer is not grown, and the write cursor moves back to 1, below two
of the bytes already written; the next append then overwrites them, and the placeholder
returned claims `2 ^ 64 - 2` bytes from index 3 of a four-byte buffer. -/
theorem append_placeholder_wraps :
    Packet.append (fun _ => 0) (Packet.ofSize (fun _ => 0) 5 4) [1, 2, 3] 3 =
      some ⟨5, [1, 2, 3, 0], 4, 0, 3⟩ ∧
    2 ^ 64 - 2 < Packet.SIZE_MOD ∧
    Packet.append_placeholder_sz (fun _ => 0) ⟨5, [1, 2, 3, 0], 4, 0, 3⟩ (2 ^ 64 - 2) =
      some (⟨5, [1, 2, 3, 0], 4, 0, 1⟩, ⟨2 ^ 64 - 2, 3⟩) ∧
    (⟨5, [1, 2, 3, 0], 4, 0, 1⟩ : Packet).m_wpoz ≠ 3 + (2 ^ 64 - 2) ∧
    (⟨5, [1, 2, 3, 0], 4, 0, 1⟩ : Packet).m_wpoz < 3 ∧
    Packet.append (fun _ => 0) ⟨5, [1, 2, 3, 0], 4, 0, 1⟩ [9] 1 =
      some ⟨5, [1, 9, 3, 0], 4, 0, 2⟩ := by
  decide

/-- C18 (growth terminates): over unbounded naturals, for every reachable packet (so
also one created with `Packet(opcode, 0)` or `Packet(opcode, data, 0)`) and every
requested size, the capacity is at least 1, the doubling loop of `ensure_wpoz_inc` exits
(some number of tests of its condition reaches the exit, and any larger number gives the
same result) with a capacity that is still at least 1, and hence `append` of that many
bytes and `append_placeholder` have a result. -/
theorem growth_terminates (heap : Heap) (s : Session) (hs : Reachable heap s)
    (x : List Byte) :
    1 ≤ s.pkt.m_size ∧
    (∃ fuel q, Packet.ensure_loop heap fuel s.pkt x.length = some q ∧ 1 ≤ q.m_size ∧
      (∀ fuel', fuel ≤ fuel' → Packet.ensure_loop heap fuel' s.pkt x.length = some q) ∧
      Packet.ensure_wpoz_inc heap s.pkt x.length = some q) ∧
    (∃ q, Packet.append heap s.pkt x x.length = some q) ∧
    (∃ r, Packet.append_placeholder heap s.pkt x.length = some r) := by
  have hp := hs.inv.pkt
  obtain ⟨e, he, hinv, _⟩ := Packet.ensure_wpoz_inc_spec heap hp x.length
  obtain ⟨q, hq, _⟩ := Packet.append_spec heap hp x
  refine ⟨hp.size_pos, ⟨_, e, he, hinv.size_pos, ?_, he⟩, ⟨q, hq⟩, ?_⟩
  · intro fuel' hf
    exact Packet.ensure_loop_mono heap x.length _ _ _ he fuel' hf
  · exact ⟨({ e with m_wpoz := e.m_wpoz + x.length },
      { m_size := x.length, m_wpoz := s.pkt.m_wpoz }),
      by simp only [Packet.append_placeholder, he, Option.some_bind]⟩

/-- An instance of `growth_terminates`: three bytes on a packet built with
`Packet(5, data, 0)`, which is in the same state as one created with `Packet(5, 0)`. -/
theorem growth_terminates_witness :
    Packet.ofSize (fun _ => 0) 5 0 = ⟨5, [], 1, 0, 0⟩ ∧
    Packet.ofData (fun _ => 0) 5 [] 0 = some ⟨5, [], 1, 0, 0⟩ ∧
    Reachable (fun _ => 0) ⟨⟨5, [], 1, 0, 0⟩, []⟩ ∧
    Packet.ensure_wpoz_inc (fun _ => 0) ⟨5, [], 1, 0, 0⟩ 3 =
      some ⟨5, [0, 0, 0, 0], 4, 0, 0⟩ ∧
    (∃ q, Packet.append (fun _ => 0) ⟨5, [], 1, 0, 0⟩ [1, 2, 3] [1, 2, 3].length = some q) ∧
    (∃ r, Packet.append_placeholder (fun _ => 0) ⟨5, [], 1, 0, 0⟩ [1, 2, 3].length
      = some r) :=
  have hr : Reachable (fun _ => 0) ⟨⟨5, [], 1, 0, 0⟩, []⟩ :=
    Reachable.ofData 5 [] 0 ⟨5, [], 1, 0, 0⟩ (by decide)
  have h := growth_terminates (fun _ => 0) ⟨⟨5, [], 1, 0, 0⟩, []⟩ hr [1, 2, 3]
  ⟨by decide, by decide, hr, by decide, h.2.2.1, h.2.2.2⟩

/-! ## Bounds of `read_string`, copies and C strings -/

theorem store_drop_of_le {blk d bytes : List Byte} {off n : Nat}
    (h : store blk off bytes = some d) (hn : off + bytes.length ≤ n) :
    d.drop n = blk.drop n := by
  unfold store at h
  split at h
  · next hle =>
    cases h
    have h1 : (blk.take off ++ bytes).length = off + bytes.length := by
      simp; omega
    rw [List.drop_append_eq_append_drop, h1]
    have h2 : (blk.take off ++ bytes).drop n = [] :=
      List.drop_eq_nil_of_le (by omega)
    rw [h2, List.nil_append, List.drop_drop]
    congr 1
    omega
  · cases h

namespace Packet

/-- The loop of `read_string` writes to the destination below index `buf_size` only. -/
theorem read_string_loop_dest (p : Packet) (n : Nat) :
    ∀ (fuel i : Nat) (x y : List Byte) (q : Packet) (b : Bool), p.m_rpoz ≤ i →
      read_string_loop p n fuel i x = some (q, y, b) →
      y.length = x.length ∧ y.drop n = x.drop n := by
  intro fuel
  induction fuel with
  | zero => intro i x y q b _ h; simp [read_string_loop] at h
  | succ fuel ih =>
    intro i x y q b hri h
    unfold read_string_loop at h
    by_cases hc : i < min (p.m_rpoz + n) p.m_size
    · rw [if_pos hc] at h
      cases hb : p.m_data[i]? with
      | none => simp [hb] at h
      | some c =>
        simp only [hb, Option.some_bind] at h
        cases hs : store x (i - p.m_rpoz) [c] with
        | none => simp [hs] at h
        | some x' =>
          simp only [hs, Option.some_bind] at h
          have h1 := store_length hs
          have h2 : x'.drop n = x.drop n :=
            store_drop_of_le hs (by simp only [List.length_singleton]; omega)
          by_cases hz : c = 0
          · rw [if_pos hz] at h
            simp only [Option.some.injEq, Prod.mk.injEq] at h
            obtain ⟨_, rfl, _⟩ := h
            exact ⟨h1, h2⟩
          · rw [if_neg hz] at h
            obtain ⟨h3, h4⟩ := ih _ _ _ _ _ (by omega) h
            exact ⟨h3.trans h1, h4.trans h2⟩
    · rw [if_neg hc] at h
      simp only [Option.some.injEq, Prod.mk.injEq] at h
      obtain ⟨_, rfl, _⟩ := h
      exact ⟨rfl, rfl⟩

/-- The loop of `read_string` reads the buffer below index `m_size` only: on a buffer
`d` with the same first `m_size` bytes it leaves the same cursor, destination and
flag. -/
theorem read_string_loop_data (p : Packet) (n : Nat) (d : List Byte)
    (hd : d.take p.m_size = p.m_data.take p.m_size) :
    ∀ (fuel i : Nat) (x : List Byte),
      (read_string_loop { p with m_data := d } n fuel i x).map (fun r => (r.1.m_rpoz, r.2)) =
        (read_string_loop p n fuel i x).map (fun r => (r.1.m_rpoz, r.2)) := by
  intro fuel
  induction fuel with
  | zero => intro i x; rfl
  | succ fuel ih =>
    intro i x
    unfold read_string_loop
    simp only
    by_cases hc : i < min (p.m_rpoz + n) p.m_size
    · rw [if_pos hc, if_pos hc]
      have hget : d[i]? = p.m_data[i]? := by
        have h1 : (d.take p.m_size)[i]? = (p.m_data.take p.m_size)[i]? := by rw [hd]
        rw [List.getElem?_take_of_lt (by omega), List.getElem?_take_of_lt (by omega)] at h1
        exact h1
      rw [hget]
      cases p.m_data[i]? with
      | none => rfl
      | some c =>
        simp only [Option.some_bind]
        cases store x (i - p.m_rpoz) [c] with
        | none => rfl
        | some x' =>
          simp only [Option.some_bind]
          by_cases hz : c = 0
          · rw [if_pos hz, if_pos hz]
            rfl
          · rw [if_neg hz, if_neg hz]
            exact ih (i + 1) x'
    · rw [if_neg hc, if_neg hc]
      rfl

/-- The loop of `read_string` has a result when the buffer holds `m_size` bytes and the
destination `buf_size` bytes. -/
theorem read_string_loop_defined (p : Packet) (n : Nat)
    (hcap : p.m_size ≤ p.m_data.length) :
    ∀ (fuel i : Nat) (x : List Byte), p.m_rpoz ≤ i → n ≤ x.length →
      min (p.m_rpoz + n) p.m_size - i < fuel →
      ∃ r, read_string_loop p n fuel i x = some r := by
  intro fuel
  induction fuel with
  | zero => intro i x _ _ h; omega
  | succ fuel ih =>
    intro i x hri hbuf hfuel
    unfold read_string_loop
    by_cases hc : i < min (p.m_rpoz + n) p.m_size
    · have hi : i < p.m_data.length := by omega
      have hget : p.m_data[i]? = some p.m_data[i] := List.getElem?_eq_getElem hi
      have hst := store_eq_some x (i - p.m_rpoz) [p.m_data[i]]
        (by simp only [List.length_singleton]; omega)
      rw [if_pos hc, hget]
      simp only [Option.some_bind, hst]
      by_cases hz : p.m_data[i] = 0
      · rw [if_pos hz]
        exact ⟨_, rfl⟩
      · rw [if_neg hz]
        exact ih (i + 1) _ (by omega) (by rw [store_length hst]; exact hbuf) (by omega)
    · rw [if_neg hc]
      exact ⟨_, rfl⟩

/-- An `append` does not shrink the block of the buffer. -/
theorem append_block_le (heap : Heap) {p q : Packet} (hp : Inv p) {x : List Byte}
    (h : append heap p x x.length = some q) : p.m_data.length ≤ q.m_data.length := by
  unfold append at h
  obtain ⟨e, he, _, _, _, _, _, _, hpre, _, _⟩ := ensure_wpoz_inc_spec heap hp x.length
  rw [he] at h
  simp only [Option.some_bind, memcpy_src, Option.bind_eq_some, Option.some.injEq] at h
  obtain ⟨d, hd, rfl⟩ := h
  simp only [store_length hd]
  exact hpre.length_le

theorem appendAll_block_le (heap : Heap) :
    ∀ (bs : List (List Byte)) (p q : Packet), Inv p → appendAll heap p bs = some q →
      p.m_data.length ≤ q.m_data.length := by
  intro bs
  induction bs with
  | nil => intro p q _ h; cases h; exact le_refl _
  | cons b bs ih =>
    intro p q hp h
    obtain ⟨p', hp', hinv, _⟩ := append_spec heap hp b
    simp only [appendAll, hp', Option.some_bind] at h
    exact le_trans (append_block_le heap hp hp') (ih p' q hinv h)

/-- The copy constructor on a packet whose buffer holds its `m_size ≥ 1` bytes. -/
theorem copy_spec (heap : Heap) (p : Packet) (hpos : 1 ≤ p.m_size)
    (hblk : p.m_size ≤ p.m_data.length) :
    copy heap p = some
      { m_opcode := p.m_opcode, m_data := p.m_data.take p.m_size, m_size := p.m_size,
        m_rpoz := 0, m_wpoz := p.m_size } := by
  have hl : load p.m_data 0 p.m_size = some (p.m_data.take p.m_size) := by
    rw [load_eq_some (by omega)]
    simp
  have hlen : (p.m_data.take p.m_size).length = p.m_size := by
    simp only [List.length_take]; omega
  have hs : store (malloc heap p.m_size) 0 (p.m_data.take p.m_size)
      = some (p.m_data.take p.m_size) := by
    rw [store_eq_some _ _ _ (by simp [malloc, hlen])]
    simp [malloc, hlen]
  simp only [copy, init_data, init, memcpy, hl, Option.some_bind, hs]
  congr 2
  omega

end Packet

/-- C15 (`read_string` stays inside both buffers): for every packet state, destination
`x` and buffer size `n`, a call `read_string(x, n)`, successful or not, leaves the
destination with its length and with its bytes from index `n` on as they were (it
writes below index `n` only); its outcome (cursor, destination, flag) is the same on any
buffer `d` that has the same first `m_size` bytes (it reads below the capacity only);
it has a result whenever the buffer holds `m_size` bytes and the destination `n` bytes;
and `read_string(x, 0)` writes nothing and fails. -/
theorem read_string_in_bounds (p : Packet) (x : List Byte) (n : Nat) (d : List Byte)
    (hd : d.take p.m_size = p.m_data.take p.m_size) :
    (∀ q y b, p.read_string x n = some (q, y, b) →
      y.length = x.length ∧ y.drop n = x.drop n) ∧
    (({ p with m_data := d } : Packet).read_string x n).map (fun r => (r.1.m_rpoz, r.2)) =
      (p.read_string x n).map (fun r => (r.1.m_rpoz, r.2)) ∧
    (p.m_size ≤ p.m_data.length → n ≤ x.length → ∃ r, p.read_string x n = some r) ∧
    p.read_string x 0 = some ({ p with m_rpoz := p.m_size + 1 }, x, false) := by
  refine ⟨?_, ?_, ?_, ?_⟩
  · intro q y b h
    exact Packet.read_string_loop_dest p n _ _ _ _ _ _ (le_refl _) h
  · exact Packet.read_string_loop_data p n d hd _ _ _
  · intro hcap hbuf
    exact Packet.read_string_loop_defined p n hcap _ _ _ (le_refl _) hbuf (by omega)
  · unfold Packet.read_string Packet.read_string_loop
    rw [if_neg (by omega)]

/-- An instance of `read_string_in_bounds`: a two-byte read of `"AB"` fails on a packet
of capacity 4, whatever lies behind the capacity, and keeps the destination from index 2
on. -/
theorem read_string_in_bounds_witness :
    ([65, 66, 0, 67, 1, 2, 3] : List Byte).take 4 = ([65, 66, 0, 67] : List Byte).take 4 ∧
    (⟨1, [65, 66, 0, 67], 4, 0, 4⟩ : Packet).read_string [9, 9, 9] 2 =
      some (⟨1, [65, 66, 0, 67], 4, 5, 4⟩, [65, 66, 9], false) ∧
    ([65, 66, 9] : List Byte).length = ([9, 9, 9] : List Byte).length ∧
    ([65, 66, 9] : List Byte).drop 2 = ([9, 9, 9] : List Byte).drop 2 ∧
    ((⟨1, [65, 66, 0, 67, 1, 2, 3], 4, 0, 4⟩ : Packet).read_string [9, 9, 9] 2).map
        (fun r => (r.1.m_rpoz, r.2)) =
      ((⟨1, [65, 66, 0, 67], 4, 0, 4⟩ : Packet).read_string [9, 9, 9] 2).map
        (fun r => (r.1.m_rpoz, r.2)) :=
  have h := read_string_in_bounds ⟨1, [65, 66, 0, 67], 4, 0, 4⟩ [9, 9, 9] 2
    [65, 66, 0, 67, 1, 2, 3] (by decide)
  ⟨by decide, by decide,
    (h.1 ⟨1, [65, 66, 0, 67], 4, 5, 4⟩ [65, 66, 9] false (by decide)).1,
    (h.1 ⟨1, [65, 66, 0, 67], 4, 5, 4⟩ [65, 66, 9] false (by decide)).2, h.2.1⟩

namespace Packet

theorem appendAll_wpoz_lt (heap : Heap) :
    ∀ (bs : List (List Byte)) (p q : Packet), Inv p → p.m_wpoz < p.m_size →
      appendAll heap p bs = some q → q.m_wpoz < q.m_size := by
  intro bs
  induction bs with
  | nil => intro p q _ hlt h; cases h; exact hlt
  | cons b bs ih =>
    intro p q hp _ h
    obtain ⟨p', hp', hinv, _, _, _, hlt', _⟩ := append_spec heap hp b
    simp only [appendAll, hp', Option.some_bind] at h
    exact ih p' q hinv hlt' h

end Packet

/-- Copy construction where the buffer is as large as the capacity says: for every
reachable packet `p` whose buffer holds its `m_size` bytes, the copy constructor `Packet(p)` has a result with the opcode of `p`,
read cursor 0, the capacity of `p`, and `getLength()` equal to the capacity of `p` (its
data are the first `m_size` bytes of the buffer of `p`); and for a packet `p` created
with `Packet(opcode, size)` followed by any appends `bs` (with `size ≥ 1`, or at least
one byte appended, so that the buffer is not the empty block of `malloc(0)`), the
`getLength()` of the copy is strictly greater than `p.getLength()`. -/
theorem copy_length (heap : Heap) (s : Session) (hs : Reachable heap s)
    (hblk : s.pkt.m_size ≤ s.pkt.m_data.length)
    (opcode size : Nat) (bs : List (List Byte)) (hne : 1 ≤ size ∨ bs.flatten ≠ []) :
    (∃ q, Packet.copy heap s.pkt = some q ∧ q.getOpcode = s.pkt.getOpcode ∧
      q.m_rpoz = 0 ∧ q.m_size = s.pkt.m_size ∧ q.getLength = s.pkt.m_size ∧
      q.getData = s.pkt.getData.take s.pkt.m_size) ∧
    (∃ p q, Packet.appendAll heap (Packet.ofSize heap opcode size) bs = some p ∧
      Packet.copy heap p = some q ∧ q.getLength = p.m_size ∧ p.getLength < q.getLength) := by
  refine ⟨⟨_, Packet.copy_spec heap s.pkt hs.inv.pkt.size_pos hblk, rfl, rfl, rfl, rfl, rfl⟩, ?_⟩
  have h0 := Packet.init_inv heap size opcode
  obtain ⟨p, hp, hinv, _, _, hw, _⟩ := Packet.appendAll_spec heap bs _ h0
  have hlt : p.m_wpoz < p.m_size :=
    Packet.appendAll_wpoz_lt heap bs _ p h0 (by simp [Packet.init]) hp
  have hlen := Packet.appendAll_block_le heap bs _ p h0 hp
  have hblk' : p.m_size ≤ p.m_data.length := by
    rcases hinv.alloc with h1 | ⟨h1, _⟩
    · omega
    · exfalso
      rcases hne with h2 | h2
      · simp [Packet.init, malloc] at hlen
        omega
      · have h3 : 0 < bs.flatten.length := List.length_pos.mpr h2
        have := hinv.wpoz_le
        omega
  exact ⟨p, _, hp, Packet.copy_spec heap p hinv.size_pos hblk', rfl, hlt⟩

/-- An instance of `copy_length`: a packet of capacity 4 holding three bytes is copied
into a packet of length 4. -/
theorem copy_length_witness :
    Reachable (fun _ => 0) ⟨⟨5, [1, 2, 3, 0], 4, 0, 3⟩, []⟩ ∧
    (⟨5, [1, 2, 3, 0], 4, 0, 3⟩ : Packet).m_size
      ≤ (⟨5, [1, 2, 3, 0], 4, 0, 3⟩ : Packet).m_data.length ∧
    (1 ≤ 4 ∨ ([[1], [2, 3]] : List (List Byte)).flatten ≠ []) ∧
    Packet.copy (fun _ => 0) ⟨5, [1, 2, 3, 0], 4, 0, 3⟩ = some ⟨5, [1, 2, 3, 0], 4, 0, 4⟩ ∧
    (∃ p q, Packet.appendAll (fun _ => 0) (Packet.ofSize (fun _ => 0) 5 4) [[1], [2, 3]]
        = some p ∧
      Packet.copy (fun _ => 0) p = some q ∧ q.getLength = p.m_size ∧
      p.getLength < q.getLength) :=
  have hr : Reachable (fun _ => 0) ⟨⟨5, [1, 2, 3, 0], 4, 0, 3⟩, []⟩ :=
    Reachable.step ⟨Packet.ofSize (fun _ => 0) 5 0, []⟩ (Op.shl [1, 2, 3]) _
      (Reachable.ofSize 5 0) (by decide)
  ⟨hr, by decide, by decide, by decide,
    (copy_length (fun _ => 0) ⟨⟨5, [1, 2, 3, 0], 4, 0, 3⟩, []⟩ hr (by decide) 5 4
      [[1], [2, 3]] (by decide)).2⟩

/-- C17 (C-string round trip): for every null-terminated byte string `x` with
`strlen(x) = len < 4096`, every `n ≥ len + 1` and every destination `buf` of at least
`n` bytes, inserting `x` with `operator << (const char *)` into a fresh
`Packet(opcode, capacity)` has a result, and `read_string(buf, n)` then returns `true`,
leaves in `buf` the `len` characters of `x` followed by the terminator (the rest of
`buf` is kept), sets the read cursor to `len + 1 = getLength()`, and leaves the packet
valid. -/
theorem cstr_round_trip (heap : Heap) (opcode capacity : Nat) (x : Nat → Byte) (len : Nat)
    (hz : x len = 0) (hnz : ∀ i < len, x i ≠ 0) (hlen : len < 4096)
    (buf : List Byte) (n : Nat) (hn : len + 1 ≤ n) (hbuf : n ≤ buf.length) :
    ∃ p q, Packet.operator_shl_cstr heap (Packet.ofSize heap opcode capacity) x = some p ∧
      p.read_string buf n =
        some (q, (List.range len).map x ++ [0] ++ buf.drop (len + 1), true) ∧
      q.m_rpoz = len + 1 ∧ q.m_rpoz = q.getLength ∧ q.operator_bool = true := by
  have h0 := Packet.init_inv heap capacity opcode
  have hscan := Packet.cstr_scan_short hz hnz hlen 4097 0 (by omega) (by omega)
  obtain ⟨p, hp, hinv, _, hr, hw, hlt, hd, _⟩ :=
    Packet.append_spec heap h0 ((List.range (len + 1)).map x)
  simp only [List.length_map, List.length_range] at hp hw
  have hr0 : p.m_rpoz = 0 := by rw [hr]; rfl
  have hw0 : p.m_wpoz = len + 1 := by rw [hw]; simp [Packet.init]
  have hd0 : p.m_data.take (len + 1) = (List.range (len + 1)).map x := by
    rw [hw0] at hd
    rw [hd]
    simp [Packet.init]
  have hcap : p.m_size ≤ p.m_data.length := by
    have := hinv.wpoz_le
    rcases hinv.alloc with h1 | ⟨h1, _⟩ <;> omega
  have hget : ∀ j, j < len + 1 → p.m_data[j]? = some (x j) := by
    intro j hj
    have h1 : (p.m_data.take (len + 1))[j]? = ((List.range (len + 1)).map x)[j]? := by
      rw [hd0]
    rw [List.getElem?_take_of_lt hj] at h1
    rw [h1, List.getElem?_map, List.getElem?_range hj]
    rfl
  have hfound := Packet.read_string_loop_found p n buf len hcap
    (by rw [hr0]; omega) (by rw [hget len (by omega), hz]) hbuf (p.m_size + 1) p.m_rpoz
    (le_refl _) (by rw [hr0]; omega)
    (fun j _ hj h => hnz j hj (by
      rw [hget j (by omega)] at h
      exact Option.some.inj h))
    (by omega)
  simp only [hr0, Nat.sub_zero, List.drop_zero, List.take_zero, List.nil_append, hd0] at hfound
  refine ⟨p, { p with m_rpoz := len + 1 }, ?_, ?_, rfl, ?_, ?_⟩
  · simp only [Packet.operator_shl_cstr, hscan, Option.some_bind]
    exact hp
  · simp only [Packet.read_string, hr0]
    rw [hfound, List.range_succ, List.map_append, List.map_cons, List.map_nil, hz]
  · simp only [Packet.getLength, hw0]
  · simp only [Packet.operator_bool, decide_eq_true_eq]
    omega

/-- An instance of `cstr_round_trip`: the string `"AA"` through a packet created with
`Packet(5, 0)`, read back into a four-byte buffer. -/
theorem cstr_round_trip_witness :
    (fun i => if i < 2 then (65 : Byte) else 0) 2 = 0 ∧
    (∀ i < 2, (fun i => if i < 2 then (65 : Byte) else 0) i ≠ 0) ∧
    2 < 4096 ∧ 2 + 1 ≤ 4 ∧ 4 ≤ ([9, 9, 9, 9] : List Byte).length ∧
    ∃ p q, Packet.operator_shl_cstr (fun _ => 0) (Packet.ofSize (fun _ => 0) 5 0)
        (fun i => if i < 2 then (65 : Byte) else 0) = some p ∧
      p.read_string [9, 9, 9, 9] 4 =
        some (q, (List.range 2).map (fun i => if i < 2 then (65 : Byte) else 0) ++ [0]
          ++ ([9, 9, 9, 9] : List Byte).drop (2 + 1), true) ∧
      q.m_rpoz = 2 + 1 ∧ q.m_rpoz = q.getLength ∧ q.operator_bool = true :=
  ⟨by decide, by decide, by decide, by decide, by decide,
    cstr_round_trip (fun _ => 0) 5 0 (fun i => if i < 2 then (65 : Byte) else 0) 2
      (by decide) (by decide) (by decide) [9, 9, 9, 9] 4 (by decide) (by decide)⟩

/-! ## The hash buffer of `UserStore` -/

/-- The standard padded base64 encoding of `n` bytes has `4 * ceil(n / 3)` characters. -/
theorem base64_encode_length :
    ∀ l : List Byte, (base64_encode l).length = 4 * ((l.length + 2) / 3)
  | [] => rfl
  | [_] => by simp [base64_encode]
  | [_, _] => by simp [base64_encode]
  | _ :: _ :: _ :: rest => by
    simp only [base64_encode, List.length_cons, base64_encode_length rest]
    omega

/-- C19 (hash buffer size): with the MD5 digest length fixed at 16 bytes, `hashLen()` is
`16 / 2 * 3 + 5 = 29` in integer arithmetic, and this is the number of characters `hash`
writes into `digest` before any terminator: the 5 characters of `"{md5}"` followed by
the standard padded base64 encoding of the 16 digest bytes, which has
`4 * ceil(16 / 3) = 24` characters. -/
theorem hashLen_eq_written (md5 : List Byte → List Byte) (message : List Byte)
    (hmd5 : (md5 message).length = MD5_DLEN) :
    UserStore.hashLen = 16 / 2 * 3 + 5 ∧ UserStore.hashLen = 29 ∧
    (UserStore.hash md5 message).length = UserStore.hashLen ∧
    (UserStore.hash md5 message).take 5 = UserStore.md5_tag ∧
    (UserStore.hash md5 message).drop 5 = base64_encode (md5 message) ∧
    (base64_encode (md5 message)).length = 24 ∧ 24 = 4 * ((16 + 2) / 3) := by
  have htake : (md5 message).take MD5_DLEN = md5 message := by
    rw [← hmd5, List.take_length]
  have hlen : (base64_encode (md5 message)).length = 24 := by
    rw [base64_encode_length, hmd5]
    rfl
  refine ⟨rfl, rfl, ?_, ?_, ?_, hlen, rfl⟩
  · simp only [UserStore.hash, htake, List.length_append, hlen]
    rfl
  · simp only [UserStore.hash, htake]
    rfl
  · simp only [UserStore.hash, htake]
    rfl

/-- An instance of `hashLen_eq_written`: a digest of sixteen zero bytes is written as
`{md5}AAAAAAAAAAAAAAAAAAAAAA==`. -/
theorem hashLen_eq_written_witness :
    ((fun _ => List.replicate 16 0) ([] : List Byte)).length = MD5_DLEN ∧
    UserStore.hash (fun _ => List.replicate 16 0) [] =
      [123, 109, 100, 53, 125,
        65, 65, 65, 65, 65, 65, 65, 65, 65, 65, 65, 65, 65, 65, 65, 65, 65, 65, 65, 65,
        65, 65, 61, 61] ∧
    (UserStore.hash (fun _ => List.replicate 16 0) []).length = UserStore.hashLen :=
  ⟨by decide, by decide,
    (hashLen_eq_written (fun _ => List.replicate 16 0) [] (by decide)).2.2.1⟩

/-! ## Frame reassembly -/

namespace Packet

/-- The constructor `Packet(opcode, data, n)` on `n` borrowed bytes. -/
theorem ofData_length (heap : Heap) (opcode : Nat) (data : List Byte) :
    ofData heap opcode data data.length =
      some { m_opcode := opcode, m_data := data, m_size := max data.length 1,
             m_rpoz := 0, m_wpoz := data.length } := by
  simp [ofData, init_data, init, memcpy, load, store, malloc]

end Packet

namespace ConnectSocket

theorem frame_packet_frame (u16 : Byte → Byte → Nat) (heap : Heap) (h0 h1 h2 h3 : Byte)
    (payload : List Byte) :
    frame_packet u16 heap ([h0, h1, h2, h3] ++ payload) =
      some { m_opcode := u16 h0 h1, m_data := payload, m_size := max payload.length 1,
             m_rpoz := 0, m_wpoz := payload.length } := by
  have h := Packet.ofData_length heap (u16 h0 h1) payload
  simpa [frame_packet, HEADER_SIZE] using h

/-- A disconnected socket ignores what it is fed. -/
theorem foldl_recv_byte_disconnected (u16 : Byte → Byte → Nat) (maxPayload : Nat)
    (heap : Heap) :
    ∀ (bytes : List Byte) (st : ConnectSocket × List Packet), st.1.connected = false →
      bytes.foldl (recv_byte u16 maxPayload heap) st = st := by
  intro bytes
  induction bytes with
  | nil => intro st _; rfl
  | cons b bytes ih =>
    intro st h
    have h1 : recv_byte u16 maxPayload heap st b = st := by
      simp [recv_byte, h]
    rw [List.foldl_cons, h1]
    exact ih st h

/-- Non-empty chunks fed one per `update` call are consumed like their concatenation. -/
theorem updates_eq_foldl (u16 : Byte → Byte → Nat) (maxPayload : Nat) (heap : Heap) :
    ∀ (chunks : List (List Byte)) (st : ConnectSocket × List Packet),
      (∀ c ∈ chunks, c ≠ []) →
      updates u16 maxPayload heap st chunks =
        chunks.flatten.foldl (recv_byte u16 maxPayload heap) st := by
  intro chunks
  induction chunks with
  | nil => intro st _; rfl
  | cons c chunks ih =>
    intro st hne
    have hc : c ≠ [] := hne c (List.mem_cons_self _ _)
    have hrest : ∀ c' ∈ chunks, c' ≠ [] := fun c' h => hne c' (List.mem_cons_of_mem _ h)
    have h1 := ih (update u16 maxPayload heap st c) hrest
    simp only [updates, List.foldl_cons] at h1 ⊢
    rw [h1, List.flatten_cons, List.foldl_append]
    simp only [update, if_neg hc]

/-- The header phase: the four header bytes of a frame whose declared payload length is
positive and within the maximum lead from `AwaitingHeader` to `AwaitingPayload`. -/
theorem foldl_header (u16 : Byte → Byte → Nat) (maxPayload : Nat) (heap : Heap)
    (h0 h1 h2 h3 : Byte) (out : List Packet)
    (hpos : 0 < u16 h2 h3) (hmax : u16 h2 h3 ≤ maxPayload) :
    [h0, h1, h2, h3].foldl (recv_byte u16 maxPayload heap) (initRead, out) =
      ({ buffer := [h0, h1, h2, h3], poz := 4, remainingHeader := 0,
         remainingData := u16 h2 h3, connected := true }, out) := by
  have h1 : ¬ maxPayload < u16 h2 h3 := by omega
  have h2 : u16 h2 h3 ≠ 0 := by omega
  simp [recv_byte, initRead, HEADER_SIZE, h1, h2]

/-- The header phase for an empty payload: the packet is dispatched at once. -/
theorem foldl_header_empty (u16 : Byte → Byte → Nat) (maxPayload : Nat) (heap : Heap)
    (h0 h1 h2 h3 : Byte) (out : List Packet) (hzero : u16 h2 h3 = 0) :
    [h0, h1, h2, h3].foldl (recv_byte u16 maxPayload heap) (initRead, out) =
      (initRead, out ++ [{ m_opcode := u16 h0 h1, m_data := [], m_size := 1,
                           m_rpoz := 0, m_wpoz := 0 }]) := by
  have hf := frame_packet_frame u16 heap h0 h1 h2 h3 []
  simp only [List.append_nil, List.length_nil, Nat.zero_max] at hf
  simp [recv_byte, initRead, HEADER_SIZE, hzero, hf]

/-- The header phase for an oversized payload length: the socket disconnects. -/
theorem foldl_header_oversized (u16 : Byte → Byte → Nat) (maxPayload : Nat) (heap : Heap)
    (h0 h1 h2 h3 : Byte) (out : List Packet) (hbig : maxPayload < u16 h2 h3) :
    [h0, h1, h2, h3].foldl (recv_byte u16 maxPayload heap) (initRead, out) =
      ({ buffer := [h0, h1, h2, h3], poz := 4, remainingHeader := 0,
         remainingData := 0, connected := false }, out) := by
  simp [recv_byte, initRead, HEADER_SIZE, hbig, disconnect]

/-- The payload phase short of the last byte: the bytes join the buffer. -/
theorem foldl_payload (u16 : Byte → Byte → Nat) (maxPayload : Nat) (heap : Heap)
    (out : List Packet) :
    ∀ (q buf : List Byte) (poz r : Nat), q.length < r →
      q.foldl (recv_byte u16 maxPayload heap)
          ({ buffer := buf, poz := poz, remainingHeader := 0, remainingData := r,
             connected := true }, out) =
        ({ buffer := buf ++ q, poz := poz + q.length, remainingHeader := 0,
           remainingData := r - q.length, connected := true }, out) := by
  intro q
  induction q with
  | nil => intro buf poz r _; simp
  | cons b q ih =>
    intro buf poz r hr
    simp only [List.length_cons] at hr
    have h1 : r - 1 ≠ 0 := by omega
    have hstep : recv_byte u16 maxPayload heap
        ({ buffer := buf, poz := poz, remainingHeader := 0, remainingData := r,
           connected := true }, out) b =
        ({ buffer := buf ++ [b], poz := poz + 1, remainingHeader := 0,
           remainingData := r - 1, connected := true }, out) := by
      simp [recv_byte, h1]
    rw [List.foldl_cons, hstep, ih (buf ++ [b]) (poz + 1) (r - 1) (by omega)]
    simp only [List.append_assoc, List.singleton_append, List.length_cons]
    congr 2
    · omega
    · omega

/-- The last payload byte: the packet is built from the buffer and dispatched, and the
state is reset. -/
theorem recv_byte_last (u16 : Byte → Byte → Nat) (maxPayload : Nat) (heap : Heap)
    (out : List Packet) (h0 h1 h2 h3 : Byte) (q : List Byte) (b : Byte) (poz : Nat) :
    recv_byte u16 maxPayload heap
        ({ buffer := [h0, h1, h2, h3] ++ q, poz := poz, remainingHeader := 0,
           remainingData := 1, connected := true }, out) b =
      (initRead, out ++ [{ m_opcode := u16 h0 h1, m_data := q ++ [b],
                           m_size := max (q ++ [b]).length 1, m_rpoz := 0,
                           m_wpoz := (q ++ [b]).length }]) := by
  have hf := frame_packet_frame u16 heap h0 h1 h2 h3 (q ++ [b])
  rw [← List.append_assoc] at hf
  simp only [recv_byte, hf]
  simp

end ConnectSocket

/-- C14 (framing reassembly), with the bound the spec puts on the declared payload
length: for every complete frame (a four-byte header `h0 h1 h2 h3` with the opcode and
the payload length, followed by a payload of that length) whose payload length is at
most the configured maximum, and every way of splitting its bytes into consecutive
non-empty chunks, feeding the chunks one per `update` call to a `ConnectSocket` in the
state `AwaitingHeader` dispatches exactly one `Packet`, which carries the opcode and the
payload of the frame, and leaves the socket in the state `AwaitingHeader` with offset
0. -/
theorem framing_reassembly (u16 : Byte → Byte → Nat) (maxPayload : Nat) (heap : Heap)
    (h0 h1 h2 h3 : Byte) (payload : List Byte) (chunks : List (List Byte))
    (hlen : payload.length = u16 h2 h3) (hmax : payload.length ≤ maxPayload)
    (hne : ∀ c ∈ chunks, c ≠ [])
    (hsplit : chunks.flatten = [h0, h1, h2, h3] ++ payload) :
    ∃ p, ConnectSocket.updates u16 maxPayload heap (ConnectSocket.initRead, []) chunks =
        (ConnectSocket.initRead, [p]) ∧
      Packet.ofData heap (u16 h0 h1) payload payload.length = some p ∧
      p.getOpcode = u16 h0 h1 ∧ p.getLength = payload.length ∧ p.getData = payload ∧
      ConnectSocket.initRead.poz = 0 ∧ 0 < ConnectSocket.initRead.remainingHeader := by
  refine ⟨{ m_opcode := u16 h0 h1, m_data := payload, m_size := max payload.length 1,
            m_rpoz := 0, m_wpoz := payload.length }, ?_,
    Packet.ofData_length heap (u16 h0 h1) payload, rfl, rfl, rfl, rfl, by decide⟩
  rw [ConnectSocket.updates_eq_foldl u16 maxPayload heap chunks _ hne, hsplit,
    List.foldl_append]
  rcases List.eq_nil_or_concat payload with hnil | ⟨q, b, hq⟩
  · subst hnil
    rw [ConnectSocket.foldl_header_empty u16 maxPayload heap h0 h1 h2 h3 []
      (by rw [← hlen]; rfl)]
    rfl
  · rw [List.concat_eq_append] at hq
    subst hq
    simp only [List.length_append, List.length_singleton] at hlen hmax
    rw [ConnectSocket.foldl_header u16 maxPayload heap h0 h1 h2 h3 [] (by omega) (by omega),
      List.foldl_append,
      ConnectSocket.foldl_payload u16 maxPayload heap [] q [h0, h1, h2, h3] 4 (u16 h2 h3)
        (by omega)]
    have h1 : u16 h2 h3 - q.length = 1 := by omega
    rw [h1, List.foldl_cons, List.foldl_nil, ConnectSocket.recv_byte_last]
    simp

/-- An instance of `framing_reassembly`: the frame of opcode 1 and payload `"PING"`, sent
low byte first, arrives as three header bytes, then one header byte and one payload
byte, then the last three payload bytes. -/
theorem framing_reassembly_witness :
    ([80, 73, 78, 71] : List Byte).length = u16_le 4 0 ∧
    ([80, 73, 78, 71] : List Byte).length ≤ MAX_PACKET_SIZE ∧
    (∀ c ∈ ([[1, 0, 4], [0, 80], [73, 78, 71]] : List (List Byte)), c ≠ []) ∧
    ([[1, 0, 4], [0, 80], [73, 78, 71]] : List (List Byte)).flatten =
      [1, 0, 4, 0] ++ [80, 73, 78, 71] ∧
    ConnectSocket.updates u16_le MAX_PACKET_SIZE (fun _ => 0) (ConnectSocket.initRead, [])
        [[1, 0, 4], [0, 80], [73, 78, 71]] =
      (ConnectSocket.initRead, [⟨1, [80, 73, 78, 71], 4, 0, 4⟩]) ∧
    ∃ p, ConnectSocket.updates u16_le MAX_PACKET_SIZE (fun _ => 0)
        (ConnectSocket.initRead, []) [[1, 0, 4], [0, 80], [73, 78, 71]] =
        (ConnectSocket.initRead, [p]) ∧
      Packet.ofData (fun _ => 0) (u16_le 1 0) [80, 73, 78, 71]
        ([80, 73, 78, 71] : List Byte).length = some p ∧
      p.getOpcode = u16_le 1 0 ∧ p.getLength = ([80, 73, 78, 71] : List Byte).length ∧
      p.getData = [80, 73, 78, 71] ∧
      ConnectSocket.initRead.poz = 0 ∧ 0 < ConnectSocket.initRead.remainingHeader :=
  ⟨by decide, by decide, by decide, by decide, by decide,
    framing_reassembly u16_le MAX_PACKET_SIZE (fun _ => 0) 1 0 4 0 [80, 73, 78, 71]
      [[1, 0, 4], [0, 80], [73, 78, 71]] (by decide) (by decide) (by decide) (by decide)⟩

/-- C14 as stated fails on an oversized frame: a complete frame whose header declares a
payload of 50000 bytes (`80 + 256 * 195`), followed by those 50000 bytes and fed as one
non-empty chunk to a socket whose maximum payload length is `MAX_PACKET_SIZE = 4096`, is
rejected when the header is complete: no packet is dispatched and the socket ends
disconnected, not in the state `AwaitingHeader`. -/
theorem framing_oversized_rejected :
    (List.replicate 50000 (0 : Byte)).length = u16_le 80 195 ∧
    (∀ c ∈ [[1, 0, 80, 195] ++ List.replicate 50000 (0 : Byte)], c ≠ []) ∧
    [[1, 0, 80, 195] ++ List.replicate 50000 (0 : Byte)].flatten =
      [1, 0, 80, 195] ++ List.replicate 50000 (0 : Byte) ∧
    ConnectSocket.updates u16_le MAX_PACKET_SIZE (fun _ => 0) (ConnectSocket.initRead, [])
        [[1, 0, 80, 195] ++ List.replicate 50000 (0 : Byte)] =
      ({ buffer := [1, 0, 80, 195], poz := 4, remainingHeader := 0, remainingData := 0,
         connected := false }, []) ∧
    ¬ ∃ p, ConnectSocket.updates u16_le MAX_PACKET_SIZE (fun _ => 0)
        (ConnectSocket.initRead, []) [[1, 0, 80, 195] ++ List.replicate 50000 (0 : Byte)] =
      (ConnectSocket.initRead, [p]) := by
  have hrun : ConnectSocket.updates u16_le MAX_PACKET_SIZE (fun _ => 0)
      (ConnectSocket.initRead, []) [[1, 0, 80, 195] ++ List.replicate 50000 (0 : Byte)] =
      ({ buffer := [1, 0, 80, 195], poz := 4, remainingHeader := 0, remainingData := 0,
         connected := false }, []) := by
    rw [ConnectSocket.updates_eq_foldl u16_le MAX_PACKET_SIZE (fun _ => 0) _ _
      (by intro c hc; rw [List.mem_singleton] at hc; rw [hc]; exact List.cons_ne_nil _ _)]
    rw [List.flatten_cons, List.flatten_nil, List.append_nil, List.foldl_append,
      ConnectSocket.foldl_header_oversized u16_le MAX_PACKET_SIZE (fun _ => 0) 1 0 80 195 []
        (by decide)]
    exact ConnectSocket.foldl_recv_byte_disconnected u16_le MAX_PACKET_SIZE (fun _ => 0) _ _ rfl
  refine ⟨?_, ?_, ?_, hrun, ?_⟩
  · rw [List.length_replicate]; decide
  · intro c hc
    rw [List.mem_singleton] at hc
    rw [hc]
    exact List.cons_ne_nil _ _
  · rw [List.flatten_cons, List.flatten_nil, List.append_nil]
  · rintro ⟨p, hp⟩
    rw [hrun] at hp
    simp [ConnectSocket.initRead] at hp

end BzAuth
